import Mathlib

/-!
Verification development for the Beryl backend analysis core
(`app/analysis/chunker.py`, `app/analysis/embedder.py`,
`app/analysis/analyzer.py`, `app/analysis/orchestrator.py`).

The Python code is shallowly embedded: pure functions become Lean
functions, external collaborators (the OpenAI embedding / generation
calls, the md5 hash, the ChromaDB vector store) become explicit function
parameters or spec-modelled data, and Python exceptions become `Except`.
Machine floats used for scores and embeddings are modelled as `ℚ` and
`Int` respectively; Python `str` operations used by the code are
re-implemented on `List Char` so that all definitions compute.
-/

/-! ## Python string primitives used by the code -/

/-- Model of Python `str.lower` restricted to ASCII (all strings handled by
the code are ASCII): lower-cases the characters `A`..`Z`. -/
def pyLowerChar (c : Char) : Char :=
  if 65 ≤ c.toNat ∧ c.toNat ≤ 90 then Char.ofNat (c.toNat + 32) else c

/-- Model of Python `s.lower()`. -/
def pyLower (s : String) : String := ⟨s.data.map pyLowerChar⟩

/-- Helper for `pyWords`: splits a character list into maximal runs of
non-whitespace characters, accumulating the current word reversed. -/
def pyWordsGo : List Char → List Char → List String
  | [], acc => if acc = [] then [] else [⟨acc.reverse⟩]
  | c :: cs, acc =>
      if c.isWhitespace then
        if acc = [] then pyWordsGo cs [] else ⟨acc.reverse⟩ :: pyWordsGo cs []
      else pyWordsGo cs (c :: acc)

/-- Model of Python `s.split()` (no separator argument): the list of
maximal whitespace-free runs, with no empty strings. -/
def pyWords (s : String) : List String := pyWordsGo s.data []

/-- Model of `key.replace("_", " ")` as used by the code (the pattern is
always the single character underscore). -/
def pyUnderscoreToSpace (s : String) : String :=
  ⟨s.data.map (fun c => if c = '_' then ' ' else c)⟩

/-- Model of Python `" ".join(words)`. -/
def joinSpace (l : List String) : String := String.intercalate " " l

/-- Model of the Python substring test `needle in hay`. -/
def containsSub (hay needle : String) : Bool :=
  decide (needle.data <:+: hay.data)

/-- Helper for `pyTitle`: walks the characters keeping track of whether the
previous character was alphabetic, mirroring Python `str.title`. -/
def pyTitleGo : Bool → List Char → List Char
  | _, [] => []
  | prevAlpha, c :: cs =>
      if c.isAlpha then
        (if prevAlpha then pyLowerChar c
         else if 97 ≤ c.toNat ∧ c.toNat ≤ 122 then Char.ofNat (c.toNat - 32) else c)
          :: pyTitleGo true cs
      else c :: pyTitleGo false cs

/-- Model of Python `s.title()` restricted to ASCII. -/
def pyTitle (s : String) : String := ⟨pyTitleGo false s.data⟩

/-- The auto-generated display label used in several places of
`analyzer.py`: `f.replace("_", " ").title()`. -/
def autoLabel (f : String) : String := pyTitle (pyUnderscoreToSpace f)

/-- Model of Python `labels.get(key, d)` over an association list. -/
def lookupD (labels : List (String × String)) (key d : String) : String :=
  (labels.lookup key).getD d

/-! ## Decimal rendering of integers (Python `str(i)` inside f-strings) -/

/-- The decimal digit characters. -/
def digitChar (d : Nat) : Char :=
  if d = 0 then '0' else if d = 1 then '1' else if d = 2 then '2'
  else if d = 3 then '3' else if d = 4 then '4' else if d = 5 then '5'
  else if d = 6 then '6' else if d = 7 then '7' else if d = 8 then '8' else '9'

/-- Fuel-driven digit expansion, most significant digit first. -/
def natDecimalGo : Nat → Nat → List Char → List Char
  | 0, _, acc => acc
  | fuel + 1, n, acc =>
      if n < 10 then digitChar n :: acc
      else natDecimalGo fuel (n / 10) (digitChar (n % 10) :: acc)

/-- Model of Python `str(n)` for a non-negative integer: the usual decimal
notation. `n + 1` units of fuel always suffice. -/
def natDecimal (n : Nat) : String := ⟨natDecimalGo (n + 1) n []⟩

/-- Model of Python `str(i)` for an arbitrary integer. -/
def intDecimal (i : Int) : String :=
  if i < 0 then "-" ++ natDecimal i.natAbs else natDecimal i.natAbs

theorem digitChar_ne_underscore (d : Nat) : digitChar d ≠ '_' := by
  unfold digitChar
  split_ifs <;> decide

theorem digitChar_toNat (d : Nat) (hd : d < 10) : (digitChar d).toNat = 48 + d := by
  interval_cases d <;> rfl

theorem natDecimalGo_acc (fuel : Nat) :
    ∀ (n : Nat) (acc : List Char),
      natDecimalGo fuel n acc = natDecimalGo fuel n [] ++ acc := by
  induction fuel with
  | zero => intro n acc; simp [natDecimalGo]
  | succ fuel ih =>
      intro n acc
      by_cases h : n < 10
      · simp [natDecimalGo, h]
      · simp only [natDecimalGo, if_neg h]
        rw [ih (n / 10) (digitChar (n % 10) :: acc), ih (n / 10) [digitChar (n % 10)]]
        simp

theorem natDecimalGo_ne_underscore (fuel : Nat) :
    ∀ (n : Nat) (acc : List Char), '_' ∉ acc → '_' ∉ natDecimalGo fuel n acc := by
  induction fuel with
  | zero => intro n acc hacc; simpa [natDecimalGo] using hacc
  | succ fuel ih =>
      intro n acc hacc
      by_cases h : n < 10
      · simp only [natDecimalGo, if_pos h, List.mem_cons]
        rintro (h1 | h2)
        · exact digitChar_ne_underscore n h1.symm
        · exact hacc h2
      · simp only [natDecimalGo, if_neg h]
        refine ih (n / 10) _ ?_
        simp only [List.mem_cons]
        rintro (h1 | h2)
        · exact digitChar_ne_underscore (n % 10) h1.symm
        · exact hacc h2

/-- The number represented by a digit run, most significant first. -/
def digitsVal (cs : List Char) : Nat :=
  cs.foldl (fun a c => 10 * a + (c.toNat - 48)) 0

theorem digitsVal_append_digit (cs : List Char) (c : Char) :
    digitsVal (cs ++ [c]) = 10 * digitsVal cs + (c.toNat - 48) := by
  simp [digitsVal, List.foldl_append]

theorem natDecimalGo_val (fuel : Nat) :
    ∀ n : Nat, n < fuel → digitsVal (natDecimalGo fuel n []) = n := by
  induction fuel with
  | zero => intro n hn; omega
  | succ fuel ih =>
      intro n hn
      by_cases h : n < 10
      · have : (digitChar n).toNat = 48 + n := digitChar_toNat n h
        simp [natDecimalGo, h, digitsVal, this]
      · have hrec : n / 10 < fuel := by omega
        simp only [natDecimalGo, if_neg h]
        rw [natDecimalGo_acc fuel (n / 10) [digitChar (n % 10)]]
        rw [digitsVal_append_digit, ih (n / 10) hrec,
          digitChar_toNat (n % 10) (Nat.mod_lt n (by norm_num))]
        omega

theorem natDecimal_inj {a b : Nat} (h : natDecimal a = natDecimal b) : a = b := by
  have hdata : natDecimalGo (a + 1) a [] = natDecimalGo (b + 1) b [] :=
    congrArg String.data h
  have ha := natDecimalGo_val (a + 1) a (Nat.lt_succ_self a)
  have hb := natDecimalGo_val (b + 1) b (Nat.lt_succ_self b)
  rw [hdata, hb] at ha
  omega

theorem natDecimal_ne_underscore (n : Nat) : '_' ∉ (natDecimal n).data :=
  natDecimalGo_ne_underscore (n + 1) n [] (by simp)

/-! ## Chunk identifiers `f"{stem}_{i}"` and their injectivity -/

/-- A chunk identifier, as built by the f-strings
`f"{url_hash}_{i}"` and `f"{video.video_id}_{chunk_index}"`. -/
def chunkIdStr (stem : String) (i : Nat) : String :=
  stem ++ "_" ++ natDecimal i

theorem split_at_last_underscore :
    ∀ (a1 : List Char) {b1 a2 b2 : List Char}, '_' ∉ a1 → '_' ∉ a2 →
      a1 ++ '_' :: b1 = a2 ++ '_' :: b2 → a1 = a2 ∧ b1 = b2 := by
  intro a1
  induction a1 with
  | nil =>
      intro b1 a2 b2 _ ha2 heq
      cases a2 with
      | nil => simpa using heq
      | cons c t =>
          exfalso
          have : c = '_' := by
            have h := congrArg (fun x => x.headD ' ') heq
            simpa using h.symm
          exact ha2 (this ▸ List.mem_cons_self c t)
  | cons c t ih =>
      intro b1 a2 b2 ha1 ha2 heq
      cases a2 with
      | nil =>
          exfalso
          have : c = '_' := by
            have h := congrArg (fun x => x.headD ' ') heq
            simpa using h
          exact ha1 (this ▸ List.mem_cons_self c t)
      | cons c2 t2 =>
          have hc : c = c2 := by simpa using congrArg (List.headD · ' ') heq
          have htl : t ++ '_' :: b1 = t2 ++ '_' :: b2 := by
            simpa using congrArg List.tail heq
          have ht1 : '_' ∉ t := fun hm => ha1 (List.mem_cons_of_mem c hm)
          have ht2 : '_' ∉ t2 := fun hm => ha2 (List.mem_cons_of_mem c2 hm)
          obtain ⟨he1, he2⟩ := ih ht1 ht2 htl
          exact ⟨by rw [hc, he1], he2⟩

theorem chunkIdStr_inj {p1 p2 : String} {n1 n2 : Nat}
    (h : chunkIdStr p1 n1 = chunkIdStr p2 n2) : p1 = p2 ∧ n1 = n2 := by
  have hdata : p1.data ++ '_' :: (natDecimal n1).data
      = p2.data ++ '_' :: (natDecimal n2).data := by
    have := congrArg String.data h
    simpa [chunkIdStr, String.data_append] using this
  have hrev : (natDecimal n1).data.reverse ++ '_' :: p1.data.reverse
      = (natDecimal n2).data.reverse ++ '_' :: p2.data.reverse := by
    have := congrArg List.reverse hdata
    simpa [List.reverse_append] using this
  have h1 : '_' ∉ (natDecimal n1).data.reverse := by
    simpa using natDecimal_ne_underscore n1
  have h2 : '_' ∉ (natDecimal n2).data.reverse := by
    simpa using natDecimal_ne_underscore n2
  obtain ⟨hd, hp⟩ := split_at_last_underscore _ h1 h2 hrev
  refine ⟨String.ext (by simpa using hp), natDecimal_inj (String.ext ?_)⟩
  simpa using hd

/-! ## Stable sorting by a key (Python `sorted` / `list.sort` with a key) -/

section KeySort

variable {α : Type} {β : Type} (key : α → β)

/-- Python `list.sort(key=key, reverse=True)`: a stable sort putting larger
keys first, realised by `List.insertionSort` (the insertion order keeps
equal-key elements in their original relative order, as Python does). -/
def sortDescBy [LinearOrder β] (l : List α) : List α :=
  l.insertionSort (fun a b => key b ≤ key a)

/-- Nearest-first ordering used by the vector store model: a stable sort
putting smaller keys first. -/
def sortAscBy [LinearOrder β] (l : List α) : List α :=
  l.insertionSort (fun a b => key a ≤ key b)

theorem sortDescBy_sorted [LinearOrder β] (l : List α) :
    (sortDescBy key l).Sorted (fun a b => key b ≤ key a) := by
  haveI : IsTotal α (fun a b => key b ≤ key a) :=
    ⟨fun a b => le_total (key b) (key a)⟩
  haveI : IsTrans α (fun a b => key b ≤ key a) :=
    ⟨fun _ _ _ hab hbc => le_trans hbc hab⟩
  exact List.sorted_insertionSort _ l

theorem sortDescBy_perm [LinearOrder β] (l : List α) :
    (sortDescBy key l).Perm l :=
  List.perm_insertionSort _ l

theorem mem_sortDescBy [LinearOrder β] {l : List α} {x : α} :
    x ∈ sortDescBy key l ↔ x ∈ l :=
  List.mem_insertionSort _

theorem mem_sortAscBy [LinearOrder β] {l : List α} {x : α} :
    x ∈ sortAscBy key l ↔ x ∈ l :=
  List.mem_insertionSort _

theorem filter_orderedInsert_key [LinearOrder β] [DecidableEq β] (s : β) (x : α) (l : List α) :
    (List.orderedInsert (fun a b => key b ≤ key a) x l).filter (fun b => key b = s)
      = if key x = s then x :: l.filter (fun b => key b = s)
        else l.filter (fun b => key b = s) := by
  induction l with
  | nil => by_cases h : key x = s <;> simp [List.orderedInsert, List.filter, h]
  | cons y ys ih =>
      simp only [List.orderedInsert]
      by_cases hxy : key y ≤ key x
      · rw [if_pos hxy]
        by_cases h : key x = s <;> simp [List.filter_cons, h]
      · rw [if_neg hxy]
        by_cases hks : key x = s
        · have hyns : ¬ key y = s := fun hys => hxy (le_of_eq (by rw [hys, hks]))
          simp [List.filter_cons, hyns, ih, hks]
        · simp [List.filter_cons, ih, hks]

theorem sortDescBy_filter_key [LinearOrder β] [DecidableEq β] (s : β) (l : List α) :
    (sortDescBy key l).filter (fun b => key b = s) = l.filter (fun b => key b = s) := by
  induction l with
  | nil => rfl
  | cons x xs ih =>
      show (List.orderedInsert _ x (sortDescBy key xs)).filter _ = _
      rw [filter_orderedInsert_key key s x (sortDescBy key xs), ih, List.filter_cons]
      by_cases h : key x = s <;> simp [h]

end KeySort

/-! ## Data model (`app/search/models.py`, `app/analysis/models.py`) -/

/-- `ArticleSource` from `app/search/models.py`. -/
structure ArticleSource where
  title : String
  url : String
  domain : String
  snippet : Option String
  source_type : String
  content : Option String
deriving DecidableEq

/-- One entry of `VideoSource.transcript_segments`: a dict with keys
`text`, `start` (seconds, an `int` produced by `int(snippet.start)` in
`youtube_search.py`), `timestamp` and `url`. -/
structure Seg where
  text : String
  start : Int
  timestamp : String
  url : String
deriving DecidableEq

/-- A fallback segment used to model Python's always-in-bounds indexing. -/
def dSeg : Seg := ⟨"", 0, "", ""⟩

/-- `VideoSource` from `app/search/models.py`. -/
structure VideoSource where
  video_id : String
  title : String
  channel : String
  url : String
  transcript : Option String
  transcript_segments : List Seg
  source_type : String
deriving DecidableEq

/-- `Chunk` from `app/analysis/models.py`. -/
structure Chunk where
  text : String
  source_name : String
  source_type : String
  url : String
  chunk_id : String
  video_id : Option String
  timestamp : Option String
  start_seconds : Option Int
deriving DecidableEq

/-- `Evidence` from `app/analysis/models.py` (the `quote` is whatever the
generation response contained). -/
structure Evidence where
  quote : String
  source_name : String
  source_type : String
  url : String
  timestamp : Option String
deriving DecidableEq

/-- `FeatureScore` from `app/analysis/models.py`; the Python `float` score
is modelled as `ℚ`. -/
structure FeatureScore where
  score : ℚ
  summary : String
  evidence : List Evidence
deriving DecidableEq

/-- `ProductAnalysis` from `app/analysis/models.py`; the `features` dict is
modelled as an association list (Python dict keys are unique, lookup is by
key). -/
structure ProductAnalysis where
  name : String
  price : Option Int
  overall_score : Option ℚ
  verdict : Option String
  features : List (String × FeatureScore)
deriving DecidableEq

/-- `FinalOutput` from `app/analysis/models.py` (the spec's RunResult). -/
structure FinalOutput where
  query : String
  products : List ProductAnalysis
deriving DecidableEq

/-! ## Segmenter (`app/analysis/chunker.py`) -/

/-- The `Chunker` class: window size and overlap. The defaults in the code
are `chunk_size = 400`, `overlap = 50`. -/
structure Chunker where
  chunk_size : Nat
  overlap : Nat
deriving DecidableEq

/-- The default-constructed `Chunker()` used by the orchestrator. -/
def defaultChunker : Chunker := ⟨400, 50⟩

/-- Fuel-driven body of `Chunker._split_into_windows`: while `start <
len(words)` emit `words[start : start + W]` and advance `start` by `s`.
The fuel equals the word count, which suffices whenever `s ≥ 1` (for
`s = 0`, where the Python loop would not terminate, the model simply stops
after `len(words)` windows; all claims constrain `overlap < chunk_size`). -/
def windowsGo (W s : Nat) : Nat → List String → List (List String)
  | _, [] => []
  | 0, _ => []
  | fuel + 1, ws => ws.take W :: windowsGo W s fuel (ws.drop s)

/-- `Chunker._split_into_windows`: overlapping windows of `chunk_size`
words with step `chunk_size - overlap`. -/
def Chunker.split_into_windows (ch : Chunker) (words : List String) : List (List String) :=
  windowsGo ch.chunk_size (ch.chunk_size - ch.overlap) words.length words

/-- `Chunker._chunk_article`. The md5 hash of the URL
(`hashlib.md5(article.url.encode()).hexdigest()[:8]`) is an external
library call, abstracted as the function parameter `urlHash`. -/
def Chunker.chunk_article (ch : Chunker) (urlHash : String → String)
    (article : ArticleSource) : List Chunk :=
  match article.content with
  | none => []
  | some content =>
      if content = "" then []
      else
        let words := pyWords content
        let raw_chunks := ch.split_into_windows words
        raw_chunks.enum.map (fun p =>
          { text := joinSpace p.2
            source_name := article.title
            source_type := "article"
            url := article.url
            chunk_id := chunkIdStr (urlHash article.url) p.1
            video_id := none
            timestamp := none
            start_seconds := none })

/-- Python `len(seg["text"].split())`, the word count of a segment text. -/
def segWordCount (s : String) : Nat := (pyWords s).length

/-- Fuel-driven inner accumulation loop of
`Chunker._chunk_video_with_timestamps`: starting from `j`, advance while
`j < len(segments)` and the accumulated word count is below `chunk_size`;
returns the final `j`. Fuel `segs.length` always suffices. -/
def accumEndGo (segs : List Seg) (W : Nat) : Nat → Nat → Nat → Nat
  | 0, j, _ => j
  | fuel + 1, j, wc =>
      if j < segs.length ∧ wc < W then
        accumEndGo segs W fuel (j + 1) (wc + segWordCount (segs.getD j dSeg).text)
      else j

/-- The index one past the last segment accumulated into the window that
starts at segment `i`. -/
def accumEnd (segs : List Seg) (W : Nat) (i : Nat) : Nat :=
  accumEndGo segs W segs.length i 0

/-- The backtracking loop of `Chunker._chunk_video_with_timestamps`:
starting from `b = j - 1` walk backwards while `b > i` and the accumulated
overlap word count is below `overlap`; returns the final `b`. -/
def backtrackFrom (segs : List Seg) (O i : Nat) : Nat → Nat → Nat
  | 0, _ => 0
  | b + 1, ow =>
      if i < b + 1 ∧ ow < O then
        backtrackFrom segs O i b (ow + segWordCount (segs.getD (b + 1) dSeg).text)
      else b + 1

/-- The next start index chosen by the timed-segment loop:
`i = max(backtrack, i + 1)`. -/
def nextStart (segs : List Seg) (W O i : Nat) : Nat :=
  max (backtrackFrom segs O i (accumEnd segs W i - 1) 0) (i + 1)

theorem nextStart_ge (segs : List Seg) (W O i : Nat) : i + 1 ≤ nextStart segs W O i :=
  Nat.le_max_right _ _

/-- The `while i < len(segments)` loop of
`Chunker._chunk_video_with_timestamps`, carrying the current start index
`i` and the running `chunk_index` `ci`. Termination is by the strict
increase of the start index (`nextStart_ge`). -/
def chunkVideoTimedLoop (ch : Chunker) (video : VideoSource) (segs : List Seg)
    (i ci : Nat) : List Chunk :=
  if h : i < segs.length then
    let j := accumEnd segs ch.chunk_size i
    if j = i then []
    else
      let chunk_segments := (segs.drop i).take (j - i)
      let first_seg := segs.getD i dSeg
      { text := joinSpace (chunk_segments.map (·.text))
        source_name := video.channel ++ " — " ++ video.title
        source_type := "youtube"
        url := "https://www.youtube.com/watch?v=" ++ video.video_id ++ "&t="
                 ++ intDecimal first_seg.start
        chunk_id := chunkIdStr video.video_id ci
        video_id := some video.video_id
        timestamp := some first_seg.timestamp
        start_seconds := some first_seg.start }
        :: chunkVideoTimedLoop ch video segs (nextStart segs ch.chunk_size ch.overlap i) (ci + 1)
  else []
termination_by segs.length - i
decreasing_by
  have := nextStart_ge segs ch.chunk_size ch.overlap i
  omega

/-- `Chunker._chunk_video_with_timestamps`. -/
def Chunker.chunk_video_with_timestamps (ch : Chunker) (video : VideoSource) : List Chunk :=
  chunkVideoTimedLoop ch video video.transcript_segments 0 0

/-- `Chunker._chunk_video_plain`, the fallback when `transcript_segments`
is empty. -/
def Chunker.chunk_video_plain (ch : Chunker) (video : VideoSource) : List Chunk :=
  let words := pyWords (video.transcript.getD "")
  let raw_chunks := ch.split_into_windows words
  raw_chunks.enum.map (fun p =>
    { text := joinSpace p.2
      source_name := video.channel ++ " — " ++ video.title
      source_type := "youtube"
      url := video.url
      chunk_id := chunkIdStr video.video_id p.1
      video_id := some video.video_id
      timestamp := none
      start_seconds := none })

/-- `Chunker._chunk_video`. -/
def Chunker.chunk_video (ch : Chunker) (video : VideoSource) : List Chunk :=
  match video.transcript with
  | none => []
  | some t =>
      if t = "" then []
      else if video.transcript_segments ≠ [] then ch.chunk_video_with_timestamps video
      else ch.chunk_video_plain video

/-- `Chunker.chunk_all`: all article chunks followed by all video chunks. -/
def Chunker.chunk_all (ch : Chunker) (urlHash : String → String)
    (articles : List ArticleSource) (videos : List VideoSource) : List Chunk :=
  (articles.map (ch.chunk_article urlHash)).flatten
    ++ (videos.map ch.chunk_video).flatten

/-! ## Lemmas about the Segmenter -/

theorem windowsGo_length (W s : Nat) (hs : 1 ≤ s) :
    ∀ (fuel : Nat) (ws : List String), ws.length ≤ fuel →
      (windowsGo W s fuel ws).length = (ws.length + s - 1) / s := by
  intro fuel
  induction fuel with
  | zero =>
      intro ws hw
      have : ws = [] := List.length_eq_zero.mp (by omega)
      subst this
      simp [windowsGo, Nat.div_eq_of_lt (by omega : s - 1 < s)]
  | succ fuel ih =>
      intro ws hw
      cases ws with
      | nil => simp [windowsGo, Nat.div_eq_of_lt (by omega : s - 1 < s)]
      | cons w t =>
          have hlen : (w :: t).length = t.length + 1 := by simp
          have hdrop : ((w :: t).drop s).length = (w :: t).length - s := by
            simp [List.length_drop]
          have hrec := ih ((w :: t).drop s) (by omega)
          show ((w :: t).take W :: windowsGo W s fuel ((w :: t).drop s)).length = _
          rw [List.length_cons, hrec, hdrop]
          rcases Nat.lt_or_ge (w :: t).length s with hlt | hge
          · have h1 : (w :: t).length - s = 0 := by omega
            rw [h1]
            have e1 : (0 + s - 1) / s = 0 := Nat.div_eq_of_lt (by omega)
            have e2 : ((w :: t).length + s - 1) / s = 1 :=
              Nat.div_eq_of_lt_le (by simp only [List.length_cons]; omega)
                (by simp only [List.length_cons]; omega)
            omega
          · have h2 : (w :: t).length + s - 1 = ((w :: t).length - s + s - 1) + s := by omega
            rw [h2, Nat.add_div_right _ (by omega)]

theorem windowsGo_cover (W s : Nat) (hs : 1 ≤ s) (hsW : s ≤ W) :
    ∀ (fuel : Nat) (ws : List String), ws.length ≤ fuel →
      ∀ (i : Nat) (hi : i < ws.length),
        ∃ win ∈ windowsGo W s fuel ws, ∃ j, ∃ hj : j < win.length,
          win.get ⟨j, hj⟩ = ws.get ⟨i, hi⟩ := by
  intro fuel
  induction fuel with
  | zero =>
      intro ws hw i hi
      omega
  | succ fuel ih =>
      intro ws hw i hi
      cases ws with
      | nil => simp at hi
      | cons w t =>
          by_cases hiW : i < W
          · refine ⟨(w :: t).take W, List.mem_cons_self _ _, i, ?_, ?_⟩
            · have hlen2 : (w :: t).length = t.length + 1 := rfl
              simp only [List.length_take, List.length_cons]
              omega
            · simp [List.get_eq_getElem, List.getElem_take]
          · have hge : s ≤ i := by omega
            have hdl : ((w :: t).drop s).length = (w :: t).length - s := by
              simp [List.length_drop]
            have hi' : i - s < ((w :: t).drop s).length := by omega
            obtain ⟨win, hwin, j, hj, hget⟩ :=
              ih ((w :: t).drop s)
                (by rw [hdl]; simp only [List.length_cons] at hw ⊢; omega) (i - s) hi'
            refine ⟨win, List.mem_cons_of_mem _ hwin, j, hj, ?_⟩
            rw [hget]
            simp only [List.get_eq_getElem, List.getElem_drop]
            congr 1
            omega

theorem count_succ_step (L s : Nat) (hs : 1 ≤ s) (hL : 1 ≤ L) :
    (L + s - 1) / s = (L - s + s - 1) / s + 1 := by
  rcases Nat.lt_or_ge L s with hlt | hge
  · have h1 : L - s = 0 := by omega
    rw [h1]
    have e1 : (0 + s - 1) / s = 0 := Nat.div_eq_of_lt (by omega)
    have e2 : (L + s - 1) / s = 1 := Nat.div_eq_of_lt_le (by omega) (by omega)
    omega
  · have h2 : L + s - 1 = (L - s + s - 1) + s := by omega
    rw [h2, Nat.add_div_right _ (by omega)]

theorem windowsGo_slices (W s : Nat) (hs : 1 ≤ s) :
    ∀ (fuel : Nat) (ws : List String), ws.length ≤ fuel →
      windowsGo W s fuel ws
        = (List.range ((ws.length + s - 1) / s)).map
            (fun n => (ws.drop (n * s)).take W) := by
  intro fuel
  induction fuel with
  | zero =>
      intro ws hw
      have hnil : ws = [] := List.length_eq_zero.mp (by omega)
      subst hnil
      simp [windowsGo, Nat.div_eq_of_lt (by omega : s - 1 < s)]
  | succ fuel ih =>
      intro ws hw
      cases ws with
      | nil => simp [windowsGo, Nat.div_eq_of_lt (by omega : s - 1 < s)]
      | cons w t =>
          have hdl : ((w :: t).drop s).length = (w :: t).length - s := by
            simp [List.length_drop]
          have hrec := ih ((w :: t).drop s)
            (by rw [hdl]; simp only [List.length_cons] at hw ⊢; omega)
          have hcnt : ((w :: t).length + s - 1) / s
              = (((w :: t).drop s).length + s - 1) / s + 1 := by
            rw [hdl]
            exact count_succ_step (w :: t).length s hs (by simp)
          show (w :: t).take W :: windowsGo W s fuel ((w :: t).drop s) = _
          rw [hrec, hcnt, List.range_succ_eq_map, List.map_cons, List.map_map]
          congr 1
          · simp
          · apply List.map_congr_left
            intro n _
            simp only [Function.comp]
            rw [List.drop_drop]
            congr 2
            rw [Nat.succ_mul]
            omega

theorem index_in_window (L W s i : Nat) (hs : 1 ≤ s) (hsW : s ≤ W) (hi : i < L) :
    i / s < (L + s - 1) / s ∧ (i / s) * s ≤ i ∧ i < (i / s) * s + W := by
  refine ⟨?_, Nat.div_mul_le_self i s, ?_⟩
  · have h1 : i / s ≤ (L - 1) / s := Nat.div_le_div_right (by omega)
    have h2 : (L + s - 1) / s = (L - 1) / s + 1 := by
      have h3 : L + s - 1 = (L - 1) + s := by omega
      rw [h3, Nat.add_div_right _ (by omega)]
    omega
  · have hmod := Nat.div_add_mod i s
    have hlt := Nat.mod_lt i (show 0 < s by omega)
    have hcomm : s * (i / s) = (i / s) * s := Nat.mul_comm s (i / s)
    omega

theorem split_into_windows_length (ch : Chunker) (words : List String)
    (hWO : ch.overlap < ch.chunk_size) :
    (ch.split_into_windows words).length
      = (words.length + (ch.chunk_size - ch.overlap) - 1) / (ch.chunk_size - ch.overlap) :=
  windowsGo_length ch.chunk_size (ch.chunk_size - ch.overlap) (by omega) words.length words le_rfl

theorem chunk_article_length_eq (ch : Chunker) (uh : String → String)
    (a : ArticleSource) (content : String) (hc : a.content = some content)
    (hne : pyWords content ≠ []) (hWO : ch.overlap < ch.chunk_size) :
    (ch.chunk_article uh a).length
      = ((pyWords content).length + (ch.chunk_size - ch.overlap) - 1)
          / (ch.chunk_size - ch.overlap) := by
  have hcontent : content ≠ "" := by
    intro h
    subst h
    exact hne rfl
  unfold Chunker.chunk_article
  rw [hc]
  simp only [if_neg hcontent, List.length_map, List.enum_length]
  exact split_into_windows_length ch (pyWords content) hWO

theorem mem_chunk_article (ch : Chunker) (uh : String → String)
    (a : ArticleSource) (c : Chunk) (h : c ∈ ch.chunk_article uh a) :
    c.source_type = "article" ∧ c.video_id = none ∧ c.timestamp = none
      ∧ c.start_seconds = none ∧ ∃ t, c.chunk_id = chunkIdStr (uh a.url) t := by
  unfold Chunker.chunk_article at h
  split at h
  · simp at h
  · split at h
    · simp at h
    · simp only [List.mem_map] at h
      obtain ⟨p, _, hpc⟩ := h
      subst hpc
      exact ⟨rfl, rfl, rfl, rfl, p.1, rfl⟩

theorem mem_chunk_video_plain (ch : Chunker) (v : VideoSource) (c : Chunk)
    (h : c ∈ ch.chunk_video_plain v) :
    c.source_type = "youtube" ∧ c.video_id = some v.video_id ∧ c.timestamp = none
      ∧ c.start_seconds = none ∧ ∃ t, c.chunk_id = chunkIdStr v.video_id t := by
  unfold Chunker.chunk_video_plain at h
  obtain ⟨p, _, hpc⟩ := List.mem_map.mp h
  subst hpc
  exact ⟨rfl, rfl, rfl, rfl, p.1, rfl⟩

theorem chunkVideoTimedLoop_mem (ch : Chunker) (v : VideoSource) (segs : List Seg) :
    ∀ (n i ci : Nat), segs.length - i ≤ n →
      ∀ c ∈ chunkVideoTimedLoop ch v segs i ci,
        c.source_type = "youtube" ∧ c.video_id = some v.video_id
          ∧ (∃ fs : Seg, c.timestamp = some fs.timestamp ∧ c.start_seconds = some fs.start)
          ∧ ∃ t, c.chunk_id = chunkIdStr v.video_id (ci + t) := by
  intro n
  induction n with
  | zero =>
      intro i ci hn c hc
      rw [chunkVideoTimedLoop] at hc
      have hni : ¬ i < segs.length := by omega
      simp [hni] at hc
  | succ n ih =>
      intro i ci hn c hc
      rw [chunkVideoTimedLoop] at hc
      by_cases hi : i < segs.length
      · simp only [dif_pos hi] at hc
        by_cases hj : accumEnd segs ch.chunk_size i = i
        · simp [hj] at hc
        · simp only [if_neg hj] at hc
          rcases List.mem_cons.mp hc with hceq | hrest
          · subst hceq
            exact ⟨rfl, rfl, ⟨segs.getD i dSeg, rfl, rfl⟩, 0, by simp [chunkIdStr]⟩
          · have hstep := nextStart_ge segs ch.chunk_size ch.overlap i
            obtain ⟨h1, h2, h3, t, ht⟩ :=
              ih (nextStart segs ch.chunk_size ch.overlap i) (ci + 1) (by omega) c hrest
            exact ⟨h1, h2, h3, t + 1, by rw [ht]; congr 1; omega⟩
      · simp [hi] at hc

theorem chunkVideoTimedLoop_length (ch : Chunker) (v : VideoSource) (segs : List Seg) :
    ∀ (n i ci : Nat), segs.length - i ≤ n →
      (chunkVideoTimedLoop ch v segs i ci).length ≤ segs.length - i := by
  intro n
  induction n with
  | zero =>
      intro i ci hn
      rw [chunkVideoTimedLoop]
      have hni : ¬ i < segs.length := by omega
      simp [hni]
  | succ n ih =>
      intro i ci hn
      rw [chunkVideoTimedLoop]
      by_cases hi : i < segs.length
      · simp only [dif_pos hi]
        by_cases hj : accumEnd segs ch.chunk_size i = i
        · simp [hj]
        · simp only [if_neg hj]
          have hstep := nextStart_ge segs ch.chunk_size ch.overlap i
          have := ih (nextStart segs ch.chunk_size ch.overlap i) (ci + 1) (by omega)
          simp only [List.length_cons]
          omega
      · simp [hi]

theorem chunkVideoTimedLoop_ids_nodup (ch : Chunker) (v : VideoSource) (segs : List Seg) :
    ∀ (n i ci : Nat), segs.length - i ≤ n →
      ((chunkVideoTimedLoop ch v segs i ci).map (·.chunk_id)).Nodup := by
  intro n
  induction n with
  | zero =>
      intro i ci hn
      rw [chunkVideoTimedLoop]
      have hni : ¬ i < segs.length := by omega
      simp [hni]
  | succ n ih =>
      intro i ci hn
      rw [chunkVideoTimedLoop]
      by_cases hi : i < segs.length
      · simp only [dif_pos hi]
        by_cases hj : accumEnd segs ch.chunk_size i = i
        · simp [hj]
        · simp only [if_neg hj]
          have hstep := nextStart_ge segs ch.chunk_size ch.overlap i
          rw [List.map_cons, List.nodup_cons]
          refine ⟨?_, ih (nextStart segs ch.chunk_size ch.overlap i) (ci + 1) (by omega)⟩
          intro hmem
          obtain ⟨c, hc, hcid⟩ := List.mem_map.mp hmem
          obtain ⟨_, _, _, t, ht⟩ :=
            chunkVideoTimedLoop_mem ch v segs n
              (nextStart segs ch.chunk_size ch.overlap i) (ci + 1) (by omega) c hc
          rw [ht] at hcid
          have := (chunkIdStr_inj hcid).2
          omega
      · simp [hi]

/-- The per-source description of chunk identifiers: every id is
`f"{stem}_{i}"` for the source's stem, and within the source the ids are
pairwise distinct. -/
def idsFrom (stem : String) (ids : List String) : Prop :=
  (∀ id ∈ ids, ∃ t, id = chunkIdStr stem t) ∧ ids.Nodup

theorem idsFrom_range_map (stem : String) (n : Nat) :
    idsFrom stem ((List.range n).map (chunkIdStr stem)) := by
  constructor
  · intro id hid
    obtain ⟨t, _, ht⟩ := List.mem_map.mp hid
    exact ⟨t, ht.symm⟩
  · refine List.Nodup.map ?_ (List.nodup_range n)
    intro x y hxy
    exact (chunkIdStr_inj hxy).2

theorem enum_map_ids (stem : String) {γ : Type} (l : List γ) (f : Nat × γ → Chunk)
    (hf : ∀ p, (f p).chunk_id = chunkIdStr stem p.1) :
    (l.enum.map f).map (·.chunk_id) = (List.range l.length).map (chunkIdStr stem) := by
  rw [List.map_map]
  have h1 : ((fun c : Chunk => c.chunk_id) ∘ f) = (chunkIdStr stem) ∘ Prod.fst := by
    funext p
    exact hf p
  rw [h1, ← List.map_map, List.enum_map_fst]

theorem chunk_article_idsFrom (ch : Chunker) (uh : String → String) (a : ArticleSource) :
    idsFrom (uh a.url) ((ch.chunk_article uh a).map (·.chunk_id)) := by
  unfold Chunker.chunk_article
  rcases a.content with _ | content
  · exact ⟨by simp, by simp⟩
  · by_cases hx : content = ""
    · simp only [if_pos hx]
      exact ⟨by simp, by simp⟩
    · simp only [if_neg hx]
      rw [enum_map_ids (uh a.url) _ _ (fun p => rfl)]
      exact idsFrom_range_map _ _

theorem chunk_video_plain_idsFrom (ch : Chunker) (v : VideoSource) :
    idsFrom v.video_id ((ch.chunk_video_plain v).map (·.chunk_id)) := by
  unfold Chunker.chunk_video_plain
  rw [enum_map_ids v.video_id _ _ (fun p => rfl)]
  exact idsFrom_range_map _ _

theorem chunk_video_idsFrom (ch : Chunker) (v : VideoSource) :
    idsFrom v.video_id ((ch.chunk_video v).map (·.chunk_id)) := by
  unfold Chunker.chunk_video
  rcases v.transcript with _ | t
  · exact ⟨by simp, by simp⟩
  · by_cases hx : t = ""
    · simp only [if_pos hx]
      exact ⟨by simp, by simp⟩
    · simp only [if_neg hx]
      by_cases hsegs : v.transcript_segments ≠ []
      · simp only [if_pos hsegs]
        constructor
        · intro id hid
          obtain ⟨c, hc, hcid⟩ := List.mem_map.mp hid
          obtain ⟨_, _, _, t', ht'⟩ :=
            chunkVideoTimedLoop_mem ch v v.transcript_segments
              v.transcript_segments.length 0 0 (by omega) c hc
          exact ⟨0 + t', by rw [← hcid, ht']⟩
        · exact chunkVideoTimedLoop_ids_nodup ch v v.transcript_segments
            v.transcript_segments.length 0 0 (by omega)
      · simp only [if_neg hsegs]
        exact chunk_video_plain_idsFrom ch v

theorem idsFrom_flatten :
    ∀ (groups : List (String × List String)), (groups.map Prod.fst).Nodup →
      (∀ g ∈ groups, idsFrom g.1 g.2) → ((groups.map Prod.snd).flatten).Nodup := by
  intro groups
  induction groups with
  | nil => intro _ _; simp
  | cons g gs ih =>
      intro hstems hall
      rw [List.map_cons] at hstems
      have hcons := List.nodup_cons.mp hstems
      rw [List.map_cons, List.flatten_cons, List.nodup_append]
      obtain ⟨hshape, hnd⟩ := hall g (List.mem_cons_self g gs)
      refine ⟨hnd, ih hcons.2 (fun g' hg' => hall g' (List.mem_cons_of_mem g hg')), ?_⟩
      rw [List.disjoint_left]
      intro id hid1 hid2
      obtain ⟨t1, ht1⟩ := hshape id hid1
      obtain ⟨ids', hids', hidmem⟩ := List.mem_flatten.mp hid2
      obtain ⟨g', hg', hgsnd⟩ := List.mem_map.mp hids'
      obtain ⟨hshape', _⟩ := hall g' (List.mem_cons_of_mem g hg')
      obtain ⟨t2, ht2⟩ := hshape' id (hgsnd ▸ hidmem)
      have hstem_ne : g.1 ≠ g'.1 := fun hEq =>
        hcons.1 (hEq ▸ List.mem_map_of_mem Prod.fst hg')
      exact hstem_ne ((chunkIdStr_inj (ht1.symm.trans ht2)).1)

/-! ## Retrieval Index (`app/analysis/embedder.py`)

The OpenAI embedding call is abstracted as a function parameter
`embedFn : String → Int` (one integer-valued component stands in for a
float vector, which is all the store's distance metric needs).

The ChromaDB collection itself is third-party code, not part of this
repository. Modelled from the spec: a store of vector+text+metadata keyed
by `unit_id` where duplicate unit ids overwrite, and `query` returns the
`n_results` stored items nearest to the query embedding. -/

/-- The metadata dict built by `Embedder._build_metadata` (ChromaDB allows
no `None` values, so `video_id`/`timestamp` fall back to `""` and
`start_seconds` to `-1`). -/
structure ChunkMeta where
  source_name : String
  source_type : String
  url : String
  chunk_id : String
  video_id : String
  timestamp : String
  start_seconds : Int
deriving DecidableEq

/-- `Embedder._build_metadata`. -/
def build_metadata (c : Chunk) : ChunkMeta :=
  { source_name := c.source_name
    source_type := c.source_type
    url := c.url
    chunk_id := c.chunk_id
    video_id := c.video_id.getD ""
    timestamp := c.timestamp.getD ""
    start_seconds := c.start_seconds.getD (-1) }

/-- One stored item of the collection: id, document text, embedding,
metadata. -/
structure StoreEntry where
  id : String
  doc : String
  emb : Int
  meta : ChunkMeta
deriving DecidableEq

/-- The reconstruction of a `Chunk` from a query result, as performed by
`Embedder._parse_results` (`""` and `-1` turn back into `None`). -/
def parse_result (e : StoreEntry) : Chunk :=
  { text := e.doc
    source_name := e.meta.source_name
    source_type := e.meta.source_type
    url := e.meta.url
    chunk_id := e.meta.chunk_id
    video_id := if e.meta.video_id = "" then none else some e.meta.video_id
    timestamp := if e.meta.timestamp = "" then none else some e.meta.timestamp
    start_seconds := if e.meta.start_seconds = -1 then none else some e.meta.start_seconds }

/-- The `Embedder`: the injected embedding function plus the collection
contents. -/
structure VectorStore where
  embedFn : String → Int
  entries : List StoreEntry

/-- A fresh `Embedder()` (empty in-memory collection). -/
def emptyStore (f : String → Int) : VectorStore := ⟨f, []⟩

/-- The entry stored for a chunk by `Embedder.index`. -/
def mkEntry (f : String → Int) (c : Chunk) : StoreEntry :=
  ⟨c.chunk_id, c.text, f c.text, build_metadata c⟩

/-- Modelled from the spec: adding an entry whose unit id is already
present overwrites it, otherwise the entry is appended. -/
def upsertEntry (es : List StoreEntry) (e : StoreEntry) : List StoreEntry :=
  if es.any (fun x => x.id == e.id) then es.map (fun x => if x.id == e.id then e else x)
  else es ++ [e]

/-- `Embedder.index`: a no-op on an empty chunk list, otherwise embeds and
stores every chunk. -/
def Embedder.index (st : VectorStore) (chunks : List Chunk) : VectorStore :=
  if chunks = [] then st
  else { st with entries := (chunks.map (mkEntry st.embedFn)).foldl upsertEntry st.entries }

/-- Absolute value of the one-component distance between two embeddings. -/
def intDist (a b : Int) : Int := if a - b < 0 then -(a - b) else a - b

/-- `Embedder.search`: embed the query, optionally filter by
`source_type`, return the `top_k` nearest stored items converted back to
chunks. -/
def Embedder.search (st : VectorStore) (query : String) (top_k : Nat)
    (source_type : Option String) : List Chunk :=
  let qe := st.embedFn query
  let filtered := match source_type with
    | none => st.entries
    | some t => st.entries.filter (fun e => e.meta.source_type == t)
  ((sortAscBy (fun e => intDist e.emb qe) filtered).take top_k).map parse_result

/-- `Embedder.search_by_product`: the enriched query
`f"{product_name} review features specifications"`. -/
def Embedder.search_by_product (st : VectorStore) (product_name : String)
    (top_k : Nat) : List Chunk :=
  Embedder.search st (product_name ++ " review features specifications") top_k none

/-! ## Entity Analyzer (`app/analysis/analyzer.py`)

Each `client.chat.completions.create` call site, together with the
`strip`/`_clean_json`/`json.loads` post-processing and the shape checks
done inside the surrounding `try`, is modelled as one oracle returning
`Except Unit` of the already-parsed shape; `Except.error` covers transport
errors, unparsable JSON and wrong shapes alike, all of which the code
catches in the same `except` clause. -/

/-- The parsed shape of a feature-extraction response:
`{"features": [...], "feature_labels": {...}}`. -/
structure FeaturesJson where
  features : List String
  feature_labels : List (String × String)
deriving DecidableEq

/-- The parsed shape of one evidence object inside an analysis response. -/
structure EvidenceJson where
  quote : String
  source_name : String
  source_type : String
  url : String
  timestamp : Option String
deriving DecidableEq

/-- The parsed shape of one per-feature object inside an analysis
response. -/
structure FeatureJson where
  score : ℚ
  summary : String
  evidence : List EvidenceJson
deriving DecidableEq

/-- The parsed shape of a full per-product analysis response. -/
structure AnalysisJson where
  name : String
  price : Option Int
  overall_score : Option ℚ
  verdict : Option String
  features : List (String × FeatureJson)
deriving DecidableEq

/-- The oracles consumed by the `Analyzer`: retrieval through the
`Embedder` and the three generation call sites. Each generation oracle is
keyed by the data that determines the prompt at that call site (the
surrounding fixed prompt text is absorbed into the oracle). -/
structure AnalyzerOracles where
  searchTop : String → List Chunk
  searchProduct : String → List Chunk
  featureCall : String → String → Except Unit FeaturesJson
  discoveryCall : String → Except Unit (List String)
  analysisCall : String → Except Unit AnalysisJson

/-- The generic fallback feature set of `Analyzer._extract_features`. -/
def fallbackFeatures : List String :=
  ["quality", "performance", "battery_life", "value_for_money", "design"]

/-- The `for f in features: if f not in labels: labels[f] = ...` loop of
`Analyzer._extract_features`. -/
def fillLabels (features : List String) (labels : List (String × String)) :
    List (String × String) :=
  features.foldl
    (fun acc f => if (acc.lookup f).isSome then acc else acc ++ [(f, autoLabel f)]) labels

/-- `Analyzer._extract_features`: on any call/parse failure the generic
fallback set is used. -/
def Analyzer.extract_features (A : AnalyzerOracles) (user_query category : String) :
    List String × List (String × String) :=
  match A.featureCall user_query category with
  | Except.ok fj => (fj.features, fillLabels fj.features fj.feature_labels)
  | Except.error _ => (fallbackFeatures, fallbackFeatures.map (fun f => (f, autoLabel f)))

/-- `Analyzer._discover_products`: retrieve top-20 chunks, bail out with
`[]` when none, otherwise ask the discovery oracle (whose failure, or a
non-list response, yields `[]`). -/
def Analyzer.discover_products (A : AnalyzerOracles) (user_query : String) : List String :=
  let chunks := A.searchTop user_query
  if chunks = [] then []
  else
    match A.discoveryCall user_query with
    | Except.ok names => names
    | Except.error _ => []

/-- `Analyzer._filter_by_mention`: the 1–3 lower-case name variants and
the substring filter over the chunk texts. -/
def Analyzer.filter_by_mention (chunks : List Chunk) (product_name : String) : List Chunk :=
  let name_lower := pyLower product_name
  let parts := pyWords name_lower
  let variants := [name_lower,
    if parts.length > 1 then joinSpace (parts.drop 1) else name_lower,
    if parts.length > 1 then parts.getLastD "" else name_lower]
  chunks.filter (fun chunk => variants.any (fun v => containsSub (pyLower chunk.text) v))

/-- `Analyzer._parse_product_analysis` acting on one evidence object. -/
def parseEvidence (ej : EvidenceJson) : Evidence :=
  ⟨ej.quote, ej.source_name, ej.source_type, ej.url, ej.timestamp⟩

/-- `Analyzer._parse_product_analysis` acting on one feature object. -/
def parseFeatureScore (fj : FeatureJson) : FeatureScore :=
  ⟨fj.score, fj.summary, fj.evidence.map parseEvidence⟩

/-- `Analyzer._parse_product_analysis`: a structural translation of the
response into a `ProductAnalysis`; quotes are copied verbatim from the
response, nothing is checked against the indexed chunks. -/
def Analyzer.parse_product_analysis (data : AnalysisJson) : ProductAnalysis :=
  { name := data.name
    price := data.price
    overall_score := data.overall_score
    verdict := data.verdict
    features := data.features.map (fun p => (p.1, parseFeatureScore p.2)) }

/-- `Analyzer._analyze_product`: retrieve top-5 chunks for the product,
skip the product if none, filter to literal mentions, skip if none
survive, then call the analysis oracle; any failure yields `none`. -/
def Analyzer.analyze_product (A : AnalyzerOracles) (product_name : String) :
    Option ProductAnalysis :=
  let chunks := A.searchProduct product_name
  if chunks = [] then none
  else
    let relevant := Analyzer.filter_by_mention chunks product_name
    if relevant = [] then none
    else
      match A.analysisCall product_name with
      | Except.ok data => some (Analyzer.parse_product_analysis data)
      | Except.error _ => none

/-- The sort key `p.overall_score or 0` used by `Analyzer.analyze`. -/
def overallKey (p : ProductAnalysis) : ℚ := p.overall_score.getD 0

/-- The retention test `p.overall_score and p.overall_score > 0` used by
`Analyzer.analyze` (`None` and `0.0` are falsy). -/
def keepPositive (p : ProductAnalysis) : Bool :=
  match p.overall_score with
  | none => false
  | some s => decide (0 < s)

/-- The per-product results accumulated by the stage-2 loop of
`Analyzer.analyze`, in discovery order (products whose analysis failed are
skipped). -/
def Analyzer.raw_products (A : AnalyzerOracles) (names : List String) :
    List ProductAnalysis :=
  names.filterMap (Analyzer.analyze_product A)

/-- The products retained after the zero-score filter of
`Analyzer.analyze`, still in discovery order. -/
def Analyzer.kept_products (A : AnalyzerOracles) (names : List String) :
    List ProductAnalysis :=
  (Analyzer.raw_products A names).filter keepPositive

/-- `Analyzer.analyze`: feature extraction, discovery, per-product
analysis, zero-score filter, stable sort by `overall_score` descending.
Stage 0 (`_extract_features`) runs first, as in the source; its result
only shapes prompt text (absorbed into the oracles) and the mutated
`self.features`/`self.feature_labels`, which the orchestrator model reads
through `Analyzer.extract_features` directly. -/
def Analyzer.analyze (A : AnalyzerOracles) (user_query category : String) : FinalOutput :=
  let _stage0 := Analyzer.extract_features A user_query category
  let product_names := Analyzer.discover_products A user_query
  if product_names = [] then ⟨user_query, []⟩
  else ⟨user_query, sortDescBy overallKey (Analyzer.kept_products A product_names)⟩

/-! ## Pipeline Coordinator (`app/analysis/orchestrator.py`) -/

/-- The external collaborators of one orchestrator run: the md5 url hash,
the embedding function, and the three analyzer generation call sites plus
the follow-up generation call. -/
structure RunOracles where
  urlHash : String → String
  embedFn : String → Int
  featureCall : String → String → Except Unit FeaturesJson
  discoveryCall : String → Except Unit (List String)
  analysisCall : String → Except Unit AnalysisJson
  followupCall : String → Except Unit String

/-- The `AnalyzerOracles` induced by a run's vector store: discovery
retrieves top-20 with no filter, per-product retrieval uses
`search_by_product` with top-5. -/
def analyzerFor (O : RunOracles) (st : VectorStore) : AnalyzerOracles :=
  { searchTop := fun q => Embedder.search st q 20 none
    searchProduct := fun n => Embedder.search_by_product st n 5
    featureCall := O.featureCall
    discoveryCall := O.discoveryCall
    analysisCall := O.analysisCall }

/-- The state an `AnalysisOrchestrator` instance holds after `run`: the
analyzer's feature keys and labels, and `self.final_output`. -/
structure OrchestratorSession where
  features : List String
  feature_labels : List (String × String)
  final_output : Option FinalOutput
deriving DecidableEq

/-- The vector store built by a run (a fresh in-memory collection indexed
with every chunk; `index` is a no-op when there are no chunks). -/
def runStore (O : RunOracles) (articles : List ArticleSource)
    (videos : List VideoSource) : VectorStore :=
  Embedder.index (emptyStore O.embedFn)
    (Chunker.chunk_all defaultChunker O.urlHash articles videos)

/-- `AnalysisOrchestrator.run`: chunk, abort with an empty result (leaving
`self.final_output` unset) when no chunks were produced, otherwise index
and run the analyzer, storing its output. -/
def AnalysisOrchestrator.run (O : RunOracles) (user_query category : String)
    (articles : List ArticleSource) (videos : List VideoSource) :
    FinalOutput × OrchestratorSession :=
  let all_chunks := Chunker.chunk_all defaultChunker O.urlHash articles videos
  if all_chunks = [] then (⟨user_query, []⟩, ⟨[], [], none⟩)
  else
    let A := analyzerFor O (runStore O articles videos)
    let fl := Analyzer.extract_features A user_query category
    let out := Analyzer.analyze A user_query category
    (out, ⟨fl.1, fl.2, some out⟩)

/-- The per-product dict built by `_handle_feature_followup`: the product
fields plus, under `features`, only the matched features the product
actually has. -/
structure ProductCard where
  name : String
  price : Option Int
  overall_score : Option ℚ
  verdict : Option String
  features : List (String × FeatureScore)
deriving DecidableEq

/-- The dict returned by `AnalysisOrchestrator.handle_followup`: either a
`response_type: "text"` answer or a `response_type: "products"` ranked
view. -/
inductive FollowupResponse where
  | text (answer : String)
  | productsView (intro : String) (cards : List ProductCard)
deriving DecidableEq

/-- The exact answer text of the guard branch of `handle_followup`. -/
def noAnalysisMsg : String := "No analysis available yet. Please run a new search first."

/-- The exact answer text of the `except` branch of
`_handle_text_followup`. -/
def textFailMsg : String := "Sorry, I couldn't process that. Please try again."

/-- `AnalysisOrchestrator._detect_features`: keep the analyzed feature
keys for which some word (longer than 2 characters) of the key (with
underscores as spaces) or of the lower-cased label occurs in the
lower-cased query. -/
def detect_features (sess : OrchestratorSession) (query : String) : List String :=
  let query_lower := pyLower query
  sess.features.filter (fun feature_key =>
    let key_words := pyWords (pyUnderscoreToSpace feature_key)
    let label_words := pyWords (pyLower (lookupD sess.feature_labels feature_key ""))
    (key_words ++ label_words).any (fun word =>
      decide (2 < word.length) && containsSub query_lower word))

/-- The sort key used by `_handle_feature_followup`: the product's score
on the primary feature, or `0` when the product lacks that feature. -/
def featureKeyScore (primary : String) (p : ProductAnalysis) : ℚ :=
  match p.features.lookup primary with
  | some fs => fs.score
  | none => 0

/-- The card projection performed by the dict-building loop of
`_handle_feature_followup`. -/
def productCard (features : List String) (p : ProductAnalysis) : ProductCard :=
  ⟨p.name, p.price, p.overall_score, p.verdict,
    features.filterMap (fun f => (p.features.lookup f).map (fun fs => (f, fs)))⟩

/-- `AnalysisOrchestrator._generate_intro` (the score is rendered through
`toString`, standing in for Python float formatting). -/
def generate_intro (sess : OrchestratorSession) (sorted_products : List ProductAnalysis)
    (feature : String) : String :=
  let feature_label := lookupD sess.feature_labels feature (autoLabel feature)
  let top := match sorted_products with | [] => "N/A" | p :: _ => p.name
  let top_score : ℚ := match sorted_products with
    | [] => 0
    | p :: _ => featureKeyScore feature p
  "Here are the products ranked by **" ++ feature_label ++ "**. **" ++ top
    ++ "** leads with a score of **" ++ toString top_score
    ++ "/10**. Click any feature bar to see exact reviewer quotes."

/-- `AnalysisOrchestrator._handle_feature_followup`: stable sort of the
cached products by the first matched feature's score, descending, and the
card projection. -/
def handle_feature_followup (sess : OrchestratorSession) (out : FinalOutput)
    (features : List String) : FollowupResponse :=
  let primary_feature := features.headD ""
  let sorted_products := sortDescBy (featureKeyScore primary_feature) out.products
  FollowupResponse.productsView (generate_intro sess sorted_products primary_feature)
    (sorted_products.map (productCard features))

/-- `AnalysisOrchestrator._handle_text_followup`: the free-form
question-answering call, with its fixed apology on failure. -/
def handle_text_followup (O : RunOracles) (followup_query : String) : FollowupResponse :=
  match O.followupCall followup_query with
  | Except.ok answer => FollowupResponse.text answer
  | Except.error _ => FollowupResponse.text textFailMsg

/-- `AnalysisOrchestrator.handle_followup`. -/
def handle_followup (sess : OrchestratorSession) (O : RunOracles)
    (followup_query : String) : FollowupResponse :=
  match sess.final_output with
  | none => FollowupResponse.text noAnalysisMsg
  | some out =>
      if out.products = [] then FollowupResponse.text noAnalysisMsg
      else
        let matched_features := detect_features sess followup_query
        if matched_features = [] then handle_text_followup O followup_query
        else handle_feature_followup sess out matched_features

/-! ## Helper lemmas about the pipeline -/

theorem mem_chunk_video (ch : Chunker) (v : VideoSource) (c : Chunk)
    (h : c ∈ ch.chunk_video v) :
    c.source_type = "youtube" ∧ c.video_id = some v.video_id
      ∧ (c.timestamp.isSome ↔ c.start_seconds.isSome) := by
  unfold Chunker.chunk_video at h
  rcases htr : v.transcript with _ | t
  · rw [htr] at h; simp at h
  · rw [htr] at h
    simp only [] at h
    by_cases hx : t = ""
    · simp [hx] at h
    · rw [if_neg hx] at h
      by_cases hsegs : v.transcript_segments ≠ []
      · rw [if_pos hsegs] at h
        obtain ⟨h1, h2, ⟨fs, hts, hss⟩, _⟩ :=
          chunkVideoTimedLoop_mem ch v v.transcript_segments
            v.transcript_segments.length 0 0 (by omega) c h
        exact ⟨h1, h2, by rw [hts, hss]; simp⟩
      · rw [if_neg hsegs] at h
        obtain ⟨h1, h2, h3, h4, _⟩ := mem_chunk_video_plain ch v c h
        exact ⟨h1, h2, by rw [h3, h4]; exact Iff.rfl⟩

theorem analyze_products_eq (A : AnalyzerOracles) (user_query category : String) :
    Analyzer.analyze A user_query category
      = ⟨user_query, sortDescBy overallKey
          (Analyzer.kept_products A (Analyzer.discover_products A user_query))⟩ := by
  unfold Analyzer.analyze
  by_cases h : Analyzer.discover_products A user_query = []
  · rw [if_pos h, h]
    rfl
  · rw [if_neg h]

theorem index_embedFn (st : VectorStore) (chunks : List Chunk) :
    (Embedder.index st chunks).embedFn = st.embedFn := by
  unfold Embedder.index
  split <;> rfl

theorem mem_upsertEntry {es : List StoreEntry} {e x : StoreEntry}
    (h : x ∈ upsertEntry es e) : x ∈ es ∨ x = e := by
  unfold upsertEntry at h
  split at h
  · obtain ⟨y, hy, hyx⟩ := List.mem_map.mp h
    by_cases hid : y.id == e.id
    · right
      rw [if_pos hid] at hyx
      exact hyx.symm
    · left
      rw [if_neg hid] at hyx
      exact hyx ▸ hy
  · rcases List.mem_append.mp h with h1 | h1
    · exact Or.inl h1
    · right
      simpa using h1

theorem mem_foldl_upsert {new : List StoreEntry} :
    ∀ {es : List StoreEntry} {x : StoreEntry},
      x ∈ new.foldl upsertEntry es → x ∈ es ∨ x ∈ new := by
  induction new with
  | nil => intro es x h; exact Or.inl h
  | cons e rest ih =>
      intro es x h
      rcases ih h with h1 | h1
      · rcases mem_upsertEntry h1 with h2 | h2
        · exact Or.inl h2
        · exact Or.inr (h2 ▸ List.mem_cons_self e rest)
      · exact Or.inr (List.mem_cons_of_mem e h1)

theorem mem_index_entries {st : VectorStore} {chunks : List Chunk} {e : StoreEntry}
    (h : e ∈ (Embedder.index st chunks).entries) :
    e ∈ st.entries ∨ ∃ c ∈ chunks, e = mkEntry st.embedFn c := by
  unfold Embedder.index at h
  split at h
  · exact Or.inl h
  · rcases mem_foldl_upsert h with h1 | h1
    · exact Or.inl h1
    · obtain ⟨c, hc, hce⟩ := List.mem_map.mp h1
      exact Or.inr ⟨c, hc, hce.symm⟩

/-- The store obtained from a sequence of `index` (build) calls on a fresh
collection. -/
def buildsStore (f : String → Int) (builds : List (List Chunk)) : VectorStore :=
  builds.foldl Embedder.index (emptyStore f)

theorem foldl_index_embedFn :
    ∀ (builds : List (List Chunk)) (st : VectorStore),
      (builds.foldl Embedder.index st).embedFn = st.embedFn := by
  intro builds
  induction builds with
  | nil => intro st; rfl
  | cons b bs ih => intro st; rw [List.foldl_cons, ih, index_embedFn]

theorem mem_foldl_index_entries :
    ∀ (builds : List (List Chunk)) (st : VectorStore) (e : StoreEntry),
      e ∈ (builds.foldl Embedder.index st).entries →
      e ∈ st.entries ∨ ∃ b ∈ builds, ∃ c ∈ b, e = mkEntry st.embedFn c := by
  intro builds
  induction builds with
  | nil => intro st e h; exact Or.inl h
  | cons b bs ih =>
      intro st e h
      rw [List.foldl_cons] at h
      rcases ih (Embedder.index st b) e h with h1 | h1
      · rcases mem_index_entries h1 with h2 | ⟨c, hc, hce⟩
        · exact Or.inl h2
        · exact Or.inr ⟨b, List.mem_cons_self b bs, c, hc, hce⟩
      · obtain ⟨b', hb', c, hc, hce⟩ := h1
        rw [index_embedFn] at hce
        exact Or.inr ⟨b', List.mem_cons_of_mem b hb', c, hc, hce⟩

theorem mem_buildsStore_entries {f : String → Int} {builds : List (List Chunk)}
    {e : StoreEntry} (h : e ∈ (buildsStore f builds).entries) :
    ∃ b ∈ builds, ∃ c ∈ b, e = mkEntry f c := by
  rcases mem_foldl_index_entries builds (emptyStore f) e h with h1 | h1
  · simp [emptyStore] at h1
  · exact h1

theorem search_mem {st : VectorStore} {q : String} {k : Nat} {styp : Option String}
    {c : Chunk} (h : c ∈ Embedder.search st q k styp) :
    ∃ e ∈ st.entries, c = parse_result e := by
  unfold Embedder.search at h
  simp only [List.mem_map] at h
  obtain ⟨e, he, hec⟩ := h
  have he1 := List.mem_of_mem_take he
  rw [mem_sortAscBy] at he1
  refine ⟨e, ?_, hec.symm⟩
  rcases styp with _ | t
  · exact he1
  · exact (List.mem_filter.mp he1).1

theorem search_length_le (st : VectorStore) (q : String) (k : Nat)
    (styp : Option String) : (Embedder.search st q k styp).length ≤ k := by
  unfold Embedder.search
  rw [List.length_map]
  calc (List.take k _).length ≤ k := by rw [List.length_take]; omega

/-- A chunk whose optional fields avoid the three sentinel values that
`_build_metadata` uses for `None` (`""`, `""`, `-1`); every chunk the
Chunker produces is of this form, and exactly these chunks round-trip
through the store metadata unchanged. -/
def chunkRegular (c : Chunk) : Prop :=
  c.video_id ≠ some "" ∧ c.timestamp ≠ some "" ∧ c.start_seconds ≠ some (-1)

instance (c : Chunk) : Decidable (chunkRegular c) := by
  unfold chunkRegular
  infer_instance

theorem parse_mkEntry (f : String → Int) (c : Chunk) (h : chunkRegular c) :
    parse_result (mkEntry f c) = c := by
  obtain ⟨h1, h2, h3⟩ := h
  rcases c with ⟨t, sn, st, u, id, vid, ts, ss⟩
  simp only [parse_result, mkEntry, build_metadata]
  congr 1
  · rcases vid with _ | v
    · rfl
    · have : v ≠ "" := fun hv => h1 (by rw [hv])
      simp [Option.getD, this]
  · rcases ts with _ | v
    · rfl
    · have : v ≠ "" := fun hv => h2 (by rw [hv])
      simp [Option.getD, this]
  · rcases ss with _ | v
    · rfl
    · have : v ≠ -1 := fun hv => h3 (by rw [hv])
      simp [Option.getD, this]

/-- Empty store means empty search results. -/
theorem search_entries_nil {st : VectorStore} (h : st.entries = [])
    (q : String) (k : Nat) (styp : Option String) :
    Embedder.search st q k styp = [] := by
  unfold Embedder.search
  rcases styp with _ | t <;> simp [h, sortAscBy]

/-! ## Claim C1 — unit count and word coverage of plain-text segmentation -/

/-- Concrete five-word article used to refute the claimed count formula. -/
def c1artA : ArticleSource := ⟨"T", "u", "d", none, "article", some "w1 w2 w3 w4 w5"⟩

/-- Concrete three-word article (`L ≤ O` for the chunker `⟨5, 4⟩`). -/
def c1artB : ArticleSource := ⟨"T", "u", "d", none, "article", some "w1 w2 w3"⟩

/-- Claim C1, counterexample. For `W = 3`, `O = 1`, `L = 5` the claim
predicts `ceil((5-1)/(3-1)) = 2` units but the segmenter produces 3 (the
window loop keeps running while `start < L`, even after the words are
exhausted by a window ending exactly at `L`); and for `W = 5`, `O = 4`,
`L = 3 ≤ O` the claim predicts exactly 1 unit but the segmenter produces
3 (one window per start `0, 1, 2`). -/
theorem C1_counterexample :
    ¬ (((⟨3, 1⟩ : Chunker).chunk_article (fun _ => "h") c1artA).length
        = (5 - 1 + (3 - 1) - 1) / (3 - 1))
    ∧ ¬ (((⟨5, 4⟩ : Chunker).chunk_article (fun _ => "h") c1artB).length = 1) := by
  constructor <;> decide

/-- Claim C1, amended: for a plain-text document of `L ≥ 1` words and
`O < W`, the number of produced units is `ceil(L / (W - O))`, i.e.
`(L + (W-O) - 1) / (W-O)` — not `ceil((L-O)/(W-O))` — and every word
index `0..L-1` occurs in at least one produced unit: the `n`-th window is
exactly the word slice `[n·(W-O), n·(W-O)+W)`, each index `i` lies in the
window `i / (W-O)`, and the word at index `i` is literally an element of
some produced window. -/
theorem C1_segment_count_and_coverage (ch : Chunker) (uh : String → String)
    (a : ArticleSource) (content : String) (hc : a.content = some content)
    (hne : pyWords content ≠ []) (hWO : ch.overlap < ch.chunk_size) :
    (ch.chunk_article uh a).length
      = ((pyWords content).length + (ch.chunk_size - ch.overlap) - 1)
          / (ch.chunk_size - ch.overlap)
    ∧ ch.split_into_windows (pyWords content)
        = (List.range (((pyWords content).length + (ch.chunk_size - ch.overlap) - 1)
              / (ch.chunk_size - ch.overlap))).map
            (fun n => ((pyWords content).drop (n * (ch.chunk_size - ch.overlap))).take
              ch.chunk_size)
    ∧ (∀ i, i < (pyWords content).length →
        ∃ n < ((pyWords content).length + (ch.chunk_size - ch.overlap) - 1)
            / (ch.chunk_size - ch.overlap),
          n * (ch.chunk_size - ch.overlap) ≤ i
            ∧ i < n * (ch.chunk_size - ch.overlap) + ch.chunk_size)
    ∧ ∀ i (hi : i < (pyWords content).length),
        ∃ win ∈ ch.split_into_windows (pyWords content), ∃ j, ∃ hj : j < win.length,
          win.get ⟨j, hj⟩ = (pyWords content).get ⟨i, hi⟩ := by
  refine ⟨chunk_article_length_eq ch uh a content hc hne hWO,
    windowsGo_slices ch.chunk_size (ch.chunk_size - ch.overlap) (by omega)
      (pyWords content).length (pyWords content) le_rfl, ?_, ?_⟩
  · intro i hi
    obtain ⟨h1, h2, h3⟩ := index_in_window (pyWords content).length ch.chunk_size
      (ch.chunk_size - ch.overlap) i (by omega) (by omega) hi
    exact ⟨i / (ch.chunk_size - ch.overlap), h1, h2, h3⟩
  · intro i hi
    exact windowsGo_cover ch.chunk_size (ch.chunk_size - ch.overlap) (by omega) (by omega)
      (pyWords content).length (pyWords content) le_rfl i hi

/-- Witness for `C1_segment_count_and_coverage` at the five-word
document with `W = 3`, `O = 1`. -/
theorem C1_witness :
    ((⟨3, 1⟩ : Chunker).chunk_article (fun _ => "h") c1artA).length
      = ((pyWords "w1 w2 w3 w4 w5").length + ((3 : Nat) - 1) - 1) / ((3 : Nat) - 1) :=
  (C1_segment_count_and_coverage ⟨3, 1⟩ (fun _ => "h") c1artA "w1 w2 w3 w4 w5" rfl
    (by decide) (by decide)).1

/-! ## Claim C2 — presence pattern of the video-only chunk fields -/

/-- The claim's invariant as a boolean predicate on a chunk: `video_id`,
`timestamp`, `start_seconds` all present or all absent, and present only
on video chunks. -/
def c2ClaimOk (c : Chunk) : Bool :=
  (c.video_id.isSome == c.timestamp.isSome)
    && (c.timestamp.isSome == c.start_seconds.isSome)
    && (!c.video_id.isSome || c.source_type == "youtube")

/-- A video with a transcript but no timestamped segments, which the
Segmenter sends through the plain-text fallback path. -/
def c2video : VideoSource := ⟨"vid1", "T", "Ch", "u", some "hello world", [], "youtube"⟩

/-- Claim C2, counterexample: the plain-transcript video path
(`_chunk_video_plain`) sets `video_id` on its chunks but leaves
`timestamp` and `start_seconds` absent, so the three fields are not all
present or all absent. -/
theorem C2_counterexample :
    (defaultChunker.chunk_all (fun _ => "h") [] [c2video]).all c2ClaimOk = false := by
  decide

/-- Claim C2, amended: on every chunk the Segmenter produces, `timestamp`
and `start_seconds` are present together or absent together; article
chunks carry none of the three video fields; and `video_id` is present
exactly on chunks whose `source_type` is `"youtube"` (in particular it is
present on plain-path video chunks whose `timestamp`/`start_seconds` are
absent, which is what refutes the all-three-together reading). -/
theorem C2_video_field_pattern (ch : Chunker) (uh : String → String)
    (articles : List ArticleSource) (videos : List VideoSource) (c : Chunk)
    (h : c ∈ ch.chunk_all uh articles videos) :
    (c.timestamp.isSome ↔ c.start_seconds.isSome)
    ∧ (c.source_type = "article" →
        c.video_id = none ∧ c.timestamp = none ∧ c.start_seconds = none)
    ∧ (c.video_id.isSome ↔ c.source_type = "youtube") := by
  unfold Chunker.chunk_all at h
  rcases List.mem_append.mp h with h1 | h1
  · obtain ⟨l, hl, hcl⟩ := List.mem_flatten.mp h1
    obtain ⟨a, _, hal⟩ := List.mem_map.mp hl
    obtain ⟨hst, hvid, hts, hss, _⟩ := mem_chunk_article ch uh a c (hal ▸ hcl)
    refine ⟨by rw [hts, hss]; exact Iff.rfl, fun _ => ⟨hvid, hts, hss⟩, ?_⟩
    rw [hvid, hst]
    simp
  · obtain ⟨l, hl, hcl⟩ := List.mem_flatten.mp h1
    obtain ⟨v, _, hvl⟩ := List.mem_map.mp hl
    obtain ⟨hst, hvid, hiff⟩ := mem_chunk_video ch v c (hvl ▸ hcl)
    refine ⟨hiff, fun ha => ?_, ?_⟩
    · rw [hst] at ha
      exact absurd ha (by decide)
    · rw [hvid, hst]
      simp

/-- Witness for `C2_video_field_pattern` at the first chunk of a one-word
article. -/
theorem C2_witness :
    (((defaultChunker.chunk_all (fun _ => "h")
        [⟨"T", "u", "d", none, "article", some "hello"⟩] []).headD
          ⟨"", "", "", "", "", none, none, none⟩).timestamp.isSome
      ↔ ((defaultChunker.chunk_all (fun _ => "h")
        [⟨"T", "u", "d", none, "article", some "hello"⟩] []).headD
          ⟨"", "", "", "", "", none, none, none⟩).start_seconds.isSome) :=
  (C2_video_field_pattern defaultChunker (fun _ => "h")
    [⟨"T", "u", "d", none, "article", some "hello"⟩] [] _ (by decide)).1

/-! ## Claim C7 — distinctness of the chunk identifiers -/

/-- Two copies of the same article: identical URLs give identical id
stems and identical per-article indices. -/
def c7art : ArticleSource := ⟨"T", "u", "d", none, "article", some "w1 w2"⟩

/-- Claim C7, counterexample: feeding the same article twice (same URL,
hence the same md5 stem) makes `chunk_all` emit the id `"hash_0"` twice,
so the unit ids of one `chunk_all` call are not pairwise distinct. -/
theorem C7_counterexample :
    ¬ ((defaultChunker.chunk_all (fun _ => "hash") [c7art, c7art] []).map
        (fun c => c.chunk_id)).Nodup := by
  decide

/-- Claim C7, amended: the unit ids produced by one `chunk_all` call are
pairwise distinct provided the id stems — the url hashes of the articles
followed by the video ids of the videos — are pairwise distinct. (Within
one source the sequence index makes ids distinct; across sources the stem
does, because the decimal index suffix contains no underscore.) -/
theorem C7_chunk_ids_distinct (ch : Chunker) (uh : String → String)
    (articles : List ArticleSource) (videos : List VideoSource)
    (hstems : (articles.map (fun a => uh a.url)
        ++ videos.map (fun v => v.video_id)).Nodup) :
    ((ch.chunk_all uh articles videos).map (fun c => c.chunk_id)).Nodup := by
  have h2 : ((articles.map (fun a => (uh a.url, (ch.chunk_article uh a).map (fun c => c.chunk_id)))
      ++ videos.map (fun v => (v.video_id, (ch.chunk_video v).map (fun c => c.chunk_id)))).map
        Prod.snd).flatten
      = (ch.chunk_all uh articles videos).map (fun c => c.chunk_id) := by
    unfold Chunker.chunk_all
    rw [List.map_append, List.map_append, List.map_map, List.map_map,
      List.map_flatten, List.map_flatten, List.flatten_append, List.map_map, List.map_map]
    rfl
  rw [← h2]
  refine idsFrom_flatten _ ?_ ?_
  · rw [List.map_append, List.map_map, List.map_map]
    exact hstems
  · intro g hg
    rcases List.mem_append.mp hg with h1 | h1
    · obtain ⟨a, _, hag⟩ := List.mem_map.mp h1
      rw [← hag]
      exact chunk_article_idsFrom ch uh a
    · obtain ⟨v, _, hvg⟩ := List.mem_map.mp h1
      rw [← hvg]
      exact chunk_video_idsFrom ch v

/-- Witness for `C7_chunk_ids_distinct`: two articles with distinct URLs
hashed by an injective stand-in hash. -/
theorem C7_witness :
    ((defaultChunker.chunk_all (fun s => s)
        [⟨"T", "u1", "d", none, "article", some "w1 w2"⟩,
         ⟨"T", "u2", "d", none, "article", some "w1 w2"⟩] []).map
      (fun c => c.chunk_id)).Nodup :=
  C7_chunk_ids_distinct defaultChunker (fun s => s)
    [⟨"T", "u1", "d", none, "article", some "w1 w2"⟩,
     ⟨"T", "u2", "d", none, "article", some "w1 w2"⟩] [] (by decide)

/-! ## Claim C9 — termination of the timed-segment chunking loop -/

/-- Claim C9: in `_chunk_video_with_timestamps` the start segment index
strictly increases on every iteration (`i = max(backtrack, i + 1)`), for
every segment list — including segments with empty texts and a single
segment exceeding the overlap — so the loop terminates; accordingly the
loop starting at `i` emits at most `len(segments) - i` chunks (one per
visited start index). The Lean definition `chunkVideoTimedLoop` is
accepted by well-founded recursion on exactly this measure. -/
theorem C9_timed_loop_strict_advance (ch : Chunker) (v : VideoSource)
    (segs : List Seg) (i ci : Nat) :
    i < nextStart segs ch.chunk_size ch.overlap i
    ∧ (chunkVideoTimedLoop ch v segs i ci).length ≤ segs.length - i :=
  ⟨by have := nextStart_ge segs ch.chunk_size ch.overlap i; omega,
   chunkVideoTimedLoop_length ch v segs (segs.length - i) i ci le_rfl⟩

/-! ## Claim C3 — ordering invariants of the RunResult -/

/-- The products of the RunResult returned by one orchestrator run. -/
def runProducts (O : RunOracles) (user_query category : String)
    (articles : List ArticleSource) (videos : List VideoSource) : List ProductAnalysis :=
  (AnalysisOrchestrator.run O user_query category articles videos).1.products

/-- The retained (positively scored) products of a run in discovery
order, before the final sort. -/
def runKept (O : RunOracles) (user_query : String)
    (articles : List ArticleSource) (videos : List VideoSource) : List ProductAnalysis :=
  Analyzer.kept_products (analyzerFor O (runStore O articles videos))
    (Analyzer.discover_products (analyzerFor O (runStore O articles videos)) user_query)

theorem run_products_eq (O : RunOracles) (user_query category : String)
    (articles : List ArticleSource) (videos : List VideoSource) :
    runProducts O user_query category articles videos
      = sortDescBy overallKey (runKept O user_query articles videos) := by
  unfold runProducts AnalysisOrchestrator.run
  by_cases h : Chunker.chunk_all defaultChunker O.urlHash articles videos = []
  · rw [if_pos h]
    have hst : (runStore O articles videos).entries = [] := by
      unfold runStore
      rw [h]
      rfl
    have hdisc : Analyzer.discover_products (analyzerFor O (runStore O articles videos))
        user_query = [] := by
      unfold Analyzer.discover_products
      have hse : (analyzerFor O (runStore O articles videos)).searchTop user_query = [] :=
        search_entries_nil hst user_query 20 none
      rw [hse]
      simp
    unfold runKept
    rw [hdisc]
    rfl
  · rw [if_neg h]
    show (Analyzer.analyze (analyzerFor O (runStore O articles videos))
      user_query category).products = _
    rw [analyze_products_eq]
    rfl

/-- Claim C3: every product of a completed run's RunResult has a present,
strictly positive `overall_score`; the list is sorted by `overall_score`
descending (so a strictly better-scored entry always precedes a
worse-scored one); and among entries of equal score the first-seen
(discovery) order of the retained products is preserved (the sort is
stable: filtering the output at any score value gives exactly the
pre-sort retained sequence at that value). -/
theorem C3_runresult_ordering (O : RunOracles) (user_query category : String)
    (articles : List ArticleSource) (videos : List VideoSource) :
    (∀ p ∈ runProducts O user_query category articles videos,
        ∃ s, p.overall_score = some s ∧ 0 < s)
    ∧ (runProducts O user_query category articles videos).Sorted
        (fun a b => overallKey b ≤ overallKey a)
    ∧ (∀ i j : Fin (runProducts O user_query category articles videos).length,
        ∀ sa sb : ℚ,
          ((runProducts O user_query category articles videos).get i).overall_score = some sa →
          ((runProducts O user_query category articles videos).get j).overall_score = some sb →
          sb < sa → (i : ℕ) < (j : ℕ))
    ∧ (∀ s : ℚ,
        (runProducts O user_query category articles videos).filter (fun p => overallKey p = s)
          = (runKept O user_query articles videos).filter (fun p => overallKey p = s)) := by
  have heq := run_products_eq O user_query category articles videos
  have hsorted : (runProducts O user_query category articles videos).Sorted
      (fun a b => overallKey b ≤ overallKey a) := by
    rw [heq]
    exact sortDescBy_sorted overallKey _
  refine ⟨?_, hsorted, ?_, ?_⟩
  · intro p hp
    rw [heq, mem_sortDescBy] at hp
    unfold runKept Analyzer.kept_products at hp
    have hkeep := (List.mem_filter.mp hp).2
    unfold keepPositive at hkeep
    rcases hs : p.overall_score with _ | s
    · rw [hs] at hkeep
      simp at hkeep
    · rw [hs] at hkeep
      simp only [decide_eq_true_eq] at hkeep
      exact ⟨s, rfl, hkeep⟩
  · intro i j sa sb hi hj hlt
    rcases Nat.lt_trichotomy (i : ℕ) (j : ℕ) with h | h | h
    · exact h
    · exfalso
      have hij : i = j := Fin.ext h
      rw [hij, hj] at hi
      injection hi with hi'
      subst hi'
      exact absurd hlt (lt_irrefl _)
    · exfalso
      have hrel := hsorted.rel_get_of_lt (Fin.lt_def.mpr h)
      have e1 : overallKey ((runProducts O user_query category articles videos).get i) = sa := by
        unfold overallKey
        rw [hi]
        rfl
      have e2 : overallKey ((runProducts O user_query category articles videos).get j) = sb := by
        unfold overallKey
        rw [hj]
        rfl
      rw [e1, e2] at hrel
      exact absurd hlt (not_lt.mpr hrel)
  · intro s
    rw [heq]
    exact sortDescBy_filter_key overallKey s _

/-- Concrete run oracles for the witness: discovery yields two phones,
analysis scores Phone A at 8 and Phone B at 6. -/
def c3O : RunOracles :=
  ⟨fun _ => "aaaahash", fun _ => 0, fun _ _ => Except.error (),
   fun _ => Except.ok ["Phone A", "Phone B"],
   fun n => Except.ok ⟨n, none, some (if n = "Phone A" then 8 else 6), none, []⟩,
   fun _ => Except.error ()⟩

/-- Concrete article mentioning both phones. -/
def c3article : ArticleSource :=
  ⟨"T", "u", "d", none, "article", some "Phone A is great and Phone B is fine"⟩

/-- Witness for `C3_runresult_ordering`: the top-ranked product of the
concrete run has a present positive score. -/
theorem C3_witness :
    ∃ s, ((runProducts c3O "q" "cat" [c3article] []).headD
        ⟨"", none, none, none, []⟩).overall_score = some s ∧ 0 < s :=
  (C3_runresult_ordering c3O "q" "cat" [c3article] []).1 _ (by decide)

/-! ## Claim C8 — per-entity failures never abort the run -/

/-- Claim C8: when the generation call (or the parsing of its response)
for one entity fails — one `Except.error` from the analysis oracle, which
covers transport errors, unparsable JSON and shape errors alike — the
per-entity analysis returns `none`, the accumulated per-product results
are exactly those of the same run without the failing entity (the
remaining entities are analyzed unchanged), and `analyze` still returns a
well-formed RunResult built from the retained products; no exception
escapes. -/
theorem C8_entity_failure_isolated (A : AnalyzerOracles) (user_query category e : String)
    (pre post : List String) (herr : A.analysisCall e = Except.error ()) :
    Analyzer.analyze_product A e = none
    ∧ Analyzer.raw_products A (pre ++ e :: post) = Analyzer.raw_products A (pre ++ post)
    ∧ Analyzer.analyze A user_query category
        = ⟨user_query, sortDescBy overallKey
            (Analyzer.kept_products A (Analyzer.discover_products A user_query))⟩ := by
  have hnone : Analyzer.analyze_product A e = none := by
    show (if A.searchProduct e = [] then none
      else if Analyzer.filter_by_mention (A.searchProduct e) e = [] then none
      else match A.analysisCall e with
        | Except.ok data => some (Analyzer.parse_product_analysis data)
        | Except.error _ => none) = none
    split_ifs with h1 h2
    · rfl
    · rfl
    · rw [herr]
  refine ⟨hnone, ?_, analyze_products_eq A user_query category⟩
  unfold Analyzer.raw_products
  rw [List.filterMap_append, List.filterMap_append, List.filterMap_cons, hnone]

/-- Concrete oracles whose analysis call always fails. -/
def c8A : AnalyzerOracles :=
  ⟨fun _ => [], fun _ => [], fun _ _ => Except.error (),
   fun _ => Except.error (), fun _ => Except.error ()⟩

/-- Witness for `C8_entity_failure_isolated` at a failing entity `"X"`
between entities `"A"` and `"B"`. -/
theorem C8_witness :
    Analyzer.analyze_product c8A "X" = none
    ∧ Analyzer.raw_products c8A (["A"] ++ "X" :: ["B"])
        = Analyzer.raw_products c8A (["A"] ++ ["B"]) :=
  ⟨(C8_entity_failure_isolated c8A "q" "cat" "X" ["A"] ["B"] rfl).1,
   (C8_entity_failure_isolated c8A "q" "cat" "X" ["A"] ["B"] rfl).2.1⟩

/-! ## Claim C10 — follow-up on a run with zero products -/

/-- Claim C10: when the stored RunResult exists but contains zero
products, `handle_followup` returns the fixed textual no-analysis answer
for every follow-up text and every follow-up oracle — in particular it
performs no generation call (the result does not depend on the oracle)
and returns neither a ranked view nor an exception. -/
theorem C10_followup_no_products (sess : OrchestratorSession) (O : RunOracles)
    (followup_query : String) (out : FinalOutput)
    (h1 : sess.final_output = some out) (h2 : out.products = []) :
    handle_followup sess O followup_query = FollowupResponse.text noAnalysisMsg := by
  unfold handle_followup
  rw [h1]
  simp [h2]

/-- A session holding an empty RunResult. -/
def c10sess : OrchestratorSession := ⟨[], [], some ⟨"q", []⟩⟩

/-- Oracles whose follow-up call would return a free-text answer if it
were consulted. -/
def c10O : RunOracles :=
  ⟨fun _ => "", fun _ => 0, fun _ _ => Except.error (), fun _ => Except.error (),
   fun _ => Except.error (), fun _ => Except.ok "free text"⟩

/-- Witness for `C10_followup_no_products`. -/
theorem C10_witness :
    handle_followup c10sess c10O "anything" = FollowupResponse.text noAnalysisMsg :=
  C10_followup_no_products c10sess c10O "anything" ⟨"q", []⟩ rfl rfl

/-! ## Claim C4 — provenance of evidence quotes -/

/-- Claim C4, amended: the per-entity analysis copies every evidence
quote verbatim from the generation response — the parser performs no
check of the quote against the supplied ContentUnit texts, so the
claimed case-insensitive-substring law holds only when the generation
response itself satisfies it. -/
theorem C4_evidence_from_response (A : AnalyzerOracles) (product_name : String)
    (pa : ProductAnalysis) (h : Analyzer.analyze_product A product_name = some pa) :
    ∃ data, A.analysisCall product_name = Except.ok data
      ∧ pa = Analyzer.parse_product_analysis data
      ∧ ∀ k fs, (k, fs) ∈ pa.features → ∀ e ∈ fs.evidence,
          ∃ fj, (k, fj) ∈ data.features ∧ ∃ ej ∈ fj.evidence, e.quote = ej.quote := by
  have h' : (match A.analysisCall product_name with
      | Except.ok data => some (Analyzer.parse_product_analysis data)
      | Except.error _ => none) = some pa := by
    revert h
    show (if A.searchProduct product_name = [] then none
      else if Analyzer.filter_by_mention (A.searchProduct product_name) product_name = []
        then none
      else match A.analysisCall product_name with
        | Except.ok data => some (Analyzer.parse_product_analysis data)
        | Except.error _ => none) = some pa → _
    split_ifs with h1 h2
    · intro hx; exact absurd hx (by simp)
    · intro hx; exact absurd hx (by simp)
    · exact id
  cases hcall : A.analysisCall product_name with
  | error u => rw [hcall] at h'; simp at h'
  | ok data =>
      rw [hcall] at h'
      simp only [Option.some.injEq] at h'
      refine ⟨data, rfl, h'.symm, ?_⟩
      subst h'
      intro k fs hkfs e he
      simp only [Analyzer.parse_product_analysis, List.mem_map] at hkfs
      obtain ⟨⟨k', fj⟩, hp, hpe⟩ := hkfs
      rw [Prod.mk.injEq] at hpe
      obtain ⟨hk, hfs⟩ := hpe
      subst hk
      subst hfs
      simp only [parseFeatureScore, List.mem_map] at he
      obtain ⟨ej, hej, heje⟩ := he
      exact ⟨fj, hp, ej, hej, by rw [← heje]; rfl⟩

/-- The single chunk supplied to the counterexample analysis call. -/
def c4chunk : Chunk := ⟨"the alpha phone is nice", "S", "article", "u", "id0", none, none, none⟩

/-- A generation response whose evidence quote appears nowhere in the
supplied chunk. -/
def c4data : AnalysisJson :=
  ⟨"alpha", none, some 5, none,
   [("quality", ⟨5, "sum", [⟨"fabricated words", "S", "article", "u", none⟩]⟩)]⟩

/-- Oracles delivering that single chunk and that response. -/
def c4A : AnalyzerOracles :=
  ⟨fun _ => [], fun _ => [c4chunk], fun _ _ => Except.error (),
   fun _ => Except.error (), fun _ => Except.ok c4data⟩

/-- Claim C4, counterexample: the per-entity analysis succeeds and its
produced EntityAnalysis contains an Evidence whose quote, `"fabricated
words"`, is not a case-insensitive substring of the only ContentUnit text
supplied to the call — the code never verifies the quote. -/
theorem C4_counterexample :
    Analyzer.analyze_product c4A "alpha" = some (Analyzer.parse_product_analysis c4data)
    ∧ (Analyzer.parse_product_analysis c4data).features
        = [("quality", ⟨5, "sum", [⟨"fabricated words", "S", "article", "u", none⟩]⟩)]
    ∧ containsSub (pyLower c4chunk.text) (pyLower "fabricated words") = false := by
  refine ⟨by decide, by decide, by decide⟩

/-- Witness for `C4_evidence_from_response` at the concrete oracles. -/
theorem C4_witness :
    ∃ data, c4A.analysisCall "alpha" = Except.ok data
      ∧ Analyzer.parse_product_analysis c4data = Analyzer.parse_product_analysis data
      ∧ ∀ k fs, (k, fs) ∈ (Analyzer.parse_product_analysis c4data).features →
          ∀ e ∈ fs.evidence, ∃ fj, (k, fj) ∈ data.features
            ∧ ∃ ej ∈ fj.evidence, e.quote = ej.quote :=
  C4_evidence_from_response c4A "alpha" (Analyzer.parse_product_analysis c4data) (by decide)

/-! ## Claim C5 — query results are bounded by `k` and come from builds -/

/-- Claim C5, amended: after any sequence of build calls on a fresh
store, `query(text, k)` returns at most `k` units, and (for chunks
avoiding the metadata sentinel values, as all Segmenter output does)
every returned unit was contained in the unit list of SOME build call —
not necessarily the most recent one: the collection accumulates across
builds. -/
theorem C5_search_bounded (f : String → Int) (builds : List (List Chunk))
    (q : String) (k : Nat) (styp : Option String) :
    (Embedder.search (buildsStore f builds) q k styp).length ≤ k
    ∧ ((∀ b ∈ builds, ∀ c ∈ b, chunkRegular c) →
        ∀ c ∈ Embedder.search (buildsStore f builds) q k styp, ∃ b ∈ builds, c ∈ b) := by
  refine ⟨search_length_le _ q k styp, ?_⟩
  intro hreg c hc
  obtain ⟨e, he, hce⟩ := search_mem hc
  obtain ⟨b, hb, c0, hc0, hec⟩ := mem_buildsStore_entries he
  refine ⟨b, hb, ?_⟩
  have hpr : parse_result e = c0 := by
    rw [hec]
    exact parse_mkEntry f c0 (hreg b hb c0 hc0)
  rw [hce, hpr]
  exact hc0

/-- First build's chunk. -/
def c5chunk1 : Chunk := ⟨"text one", "S", "article", "u1", "idA", none, none, none⟩

/-- Second build's chunk. -/
def c5chunk2 : Chunk := ⟨"text two", "S", "article", "u2", "idB", none, none, none⟩

/-- Claim C5, counterexample: after `build([c5chunk1])` followed by
`build([c5chunk2])`, a query with `k = 2` returns `c5chunk1`, which is
absent from the unit list of the most recent build call. -/
theorem C5_counterexample :
    c5chunk1 ∈ Embedder.search
        (Embedder.index (Embedder.index (emptyStore (fun _ => 0)) [c5chunk1]) [c5chunk2])
        "q" 2 none
    ∧ c5chunk1 ∉ [c5chunk2] := by
  constructor <;> decide

/-- Witness for `C5_search_bounded` at the two-build store. -/
theorem C5_witness :
    (Embedder.search (buildsStore (fun _ => 0) [[c5chunk1], [c5chunk2]]) "q" 2 none).length ≤ 2
    ∧ ∃ b ∈ [[c5chunk1], [c5chunk2]], c5chunk1 ∈ b :=
  ⟨(C5_search_bounded (fun _ => 0) [[c5chunk1], [c5chunk2]] "q" 2 none).1,
   (C5_search_bounded (fun _ => 0) [[c5chunk1], [c5chunk2]] "q" 2 none).2 (by decide)
     c5chunk1 (by decide)⟩

/-! ## Claim C6 — follow-up feature matching and dimension ranking -/

theorem detect_features_ne_nil_iff (sess : OrchestratorSession) (fq : String) :
    detect_features sess fq ≠ [] ↔
      ∃ key ∈ sess.features,
        ∃ w ∈ pyWords (pyUnderscoreToSpace key)
            ++ pyWords (pyLower (lookupD sess.feature_labels key "")),
          2 < w.length ∧ containsSub (pyLower fq) w = true := by
  constructor
  · intro h
    rcases hne : detect_features sess fq with _ | ⟨key, rest⟩
    · exact absurd hne h
    · have hkey : key ∈ detect_features sess fq := by
        rw [hne]
        exact List.mem_cons_self key rest
      simp only [detect_features, List.mem_filter, List.any_eq_true, Bool.and_eq_true,
        decide_eq_true_eq] at hkey
      obtain ⟨hmem, w, hw, hlen, hsub⟩ := hkey
      exact ⟨key, hmem, w, hw, hlen, hsub⟩
  · rintro ⟨key, hkey, w, hw, hlen, hsub⟩
    intro hnil
    have hmem : key ∈ detect_features sess fq := by
      simp only [detect_features, List.mem_filter, List.any_eq_true, Bool.and_eq_true,
        decide_eq_true_eq]
      exact ⟨hkey, w, hw, hlen, hsub⟩
    rw [hnil] at hmem
    exact absurd hmem (List.not_mem_nil key)

/-- Claim C6, amended: for a completed run with a non-empty RunResult,
whenever some word longer than 2 characters of a dimension key (split at
underscores, used verbatim — this is where the claim's "case-insensitive"
reading fails, see the counterexample) or of the lower-cased label occurs
in the lower-cased follow-up text, `handle_followup` returns the
dimension-ranked products view: the cached products stably sorted
descending by the first matched dimension's score with a missing
dimension scored 0 for ranking only (the view is a permutation of the
unmodified cached records — the function is pure, the stored RunResult is
untouched). When no dimension matches, a free-text answer is returned
(the oracle's answer, or the fixed apology when the call fails). -/
theorem C6_followup_dimension_ranking (sess : OrchestratorSession) (O : RunOracles)
    (fq : String) (out : FinalOutput) (h1 : sess.final_output = some out)
    (h2 : out.products ≠ []) :
    ((∃ key ∈ sess.features,
        ∃ w ∈ pyWords (pyUnderscoreToSpace key)
            ++ pyWords (pyLower (lookupD sess.feature_labels key "")),
          2 < w.length ∧ containsSub (pyLower fq) w = true) →
      handle_followup sess O fq
          = FollowupResponse.productsView
              (generate_intro sess
                (sortDescBy (featureKeyScore ((detect_features sess fq).headD "")) out.products)
                ((detect_features sess fq).headD ""))
              ((sortDescBy (featureKeyScore ((detect_features sess fq).headD "")) out.products).map
                (productCard (detect_features sess fq)))
        ∧ (sortDescBy (featureKeyScore ((detect_features sess fq).headD "")) out.products).Sorted
            (fun a b => featureKeyScore ((detect_features sess fq).headD "") b
              ≤ featureKeyScore ((detect_features sess fq).headD "") a)
        ∧ (sortDescBy (featureKeyScore ((detect_features sess fq).headD "")) out.products).Perm
            out.products)
    ∧ ((¬ ∃ key ∈ sess.features,
        ∃ w ∈ pyWords (pyUnderscoreToSpace key)
            ++ pyWords (pyLower (lookupD sess.feature_labels key "")),
          2 < w.length ∧ containsSub (pyLower fq) w = true) →
        ∃ ans, handle_followup sess O fq = FollowupResponse.text ans
          ∧ (O.followupCall fq = Except.ok ans ∨ ans = textFailMsg)) := by
  constructor
  · intro hex
    have hne : detect_features sess fq ≠ [] := (detect_features_ne_nil_iff sess fq).mpr hex
    refine ⟨?_, sortDescBy_sorted _ _, sortDescBy_perm _ _⟩
    unfold handle_followup
    rw [h1]
    show (if out.products = [] then FollowupResponse.text noAnalysisMsg
      else if detect_features sess fq = [] then handle_text_followup O fq
      else handle_feature_followup sess out (detect_features sess fq)) = _
    rw [if_neg h2, if_neg hne]
    rfl
  · intro hnex
    have hnil : detect_features sess fq = [] := by
      by_contra hne
      exact hnex ((detect_features_ne_nil_iff sess fq).mp hne)
    have hhf : handle_followup sess O fq = handle_text_followup O fq := by
      unfold handle_followup
      rw [h1]
      show (if out.products = [] then FollowupResponse.text noAnalysisMsg
        else if detect_features sess fq = [] then handle_text_followup O fq
        else handle_feature_followup sess out (detect_features sess fq)) = _
      rw [if_neg h2, if_pos hnil]
    cases hcall : O.followupCall fq with
    | ok ans =>
        refine ⟨ans, ?_, Or.inl rfl⟩
        rw [hhf]
        unfold handle_text_followup
        rw [hcall]
    | error u =>
        refine ⟨textFailMsg, ?_, Or.inr rfl⟩
        rw [hhf]
        unfold handle_text_followup
        rw [hcall]

/-- A session whose only dimension key is upper-case and has no label. -/
def c6sessX : OrchestratorSession :=
  ⟨["BATTERY_LIFE"], [], some ⟨"q", [⟨"P", none, some 5, none, []⟩]⟩⟩

/-- Oracles for the counterexample (the follow-up call fails, exposing
the fixed apology of the text fallback). -/
def c6OX : RunOracles :=
  ⟨fun _ => "", fun _ => 0, fun _ _ => Except.error (), fun _ => Except.error (),
   fun _ => Except.error (), fun _ => Except.error ()⟩

/-- Claim C6, counterexample: `"battery"` is (up to case) a word of
length > 2 of the run dimension key `"BATTERY_LIFE"` and occurs in the
follow-up text, so the claim demands a dimension-ranked view; but the
code matches key words case-sensitively against the lower-cased query, so
no dimension matches and a free-text answer is returned instead. -/
theorem C6_counterexample :
    ("battery" ∈ pyWords (pyLower (pyUnderscoreToSpace "BATTERY_LIFE"))
      ∧ 2 < ("battery" : String).length
      ∧ containsSub (pyLower "how is the battery") "battery" = true)
    ∧ handle_followup c6sessX c6OX "how is the battery" = FollowupResponse.text textFailMsg := by
  refine ⟨⟨by decide, by decide, by decide⟩, by decide⟩

/-- First cached product: weaker battery score. -/
def c6p1 : ProductAnalysis := ⟨"P1", none, some 7, none, [("battery_life", ⟨3, "s", []⟩)]⟩

/-- Second cached product: stronger battery score. -/
def c6p2 : ProductAnalysis := ⟨"P2", none, some 5, none, [("battery_life", ⟨9, "s", []⟩)]⟩

/-- The cached RunResult of the witness session. -/
def c6out : FinalOutput := ⟨"q", [c6p1, c6p2]⟩

/-- Witness session with a lower-case dimension key. -/
def c6sessW : OrchestratorSession :=
  ⟨["battery_life"], [("battery_life", "Battery Life")], some c6out⟩

/-- Oracles for the witness. -/
def c6OW : RunOracles :=
  ⟨fun _ => "", fun _ => 0, fun _ _ => Except.error (), fun _ => Except.error (),
   fun _ => Except.error (), fun _ => Except.error ()⟩

/-- Witness for `C6_followup_dimension_ranking`: the follow-up
`"how is the battery"` against the key `"battery_life"` yields the ranked
products view. -/
theorem C6_witness :
    handle_followup c6sessW c6OW "how is the battery"
      = FollowupResponse.productsView
          (generate_intro c6sessW
            (sortDescBy (featureKeyScore ((detect_features c6sessW "how is the battery").headD ""))
              c6out.products)
            ((detect_features c6sessW "how is the battery").headD ""))
          ((sortDescBy (featureKeyScore ((detect_features c6sessW "how is the battery").headD ""))
            c6out.products).map (productCard (detect_features c6sessW "how is the battery"))) :=
  ((C6_followup_dimension_ranking c6sessW c6OW "how is the battery" c6out rfl (by decide)).1
    (by decide)).1
